import Mathlib

/-!
# Fixed-size overwriting queue (`queue.cpp`)

A shallow embedding of the class template `Queue<T>` of `queue.cpp`:
the five data members become a record, every member function becomes a
state transformer that returns both an outcome and the queue left behind,
and C++ `int` arithmetic, array indexing and array allocation carry their
failure modes explicitly.

The mutex serialises the member functions, so a call is one atomic
transformer, except where it waits on the condition variable: a wait gives
up the lock, and what other threads do to the queue before the caller runs
again is given to the model as a list of wake-ups.
-/

namespace BoschQueue

/-! ## Outcomes -/

/-- Largest value of the C++ type `int`. -/
def INT_MAX : Int := 2147483647

/-- Smallest value of the C++ type `int`. -/
def INT_MIN : Int := -2147483648

/-- The `what()` text of the exception thrown by `PopWithTimeout`. -/
def timeoutMessage : String := "Timeout while waiting to pop element"

/-- Reasons for which a call does not return a value to its caller. -/
inductive Halt where
  /-- `new T[size]` with a negative `size` throws `std::bad_array_new_length`. -/
  | badArrayNewLength
  /-- A thrown `std::runtime_error` with its `what()` text. -/
  | runtimeError (what : String)
  /-- Undefined behaviour: `%` with a zero right operand. -/
  | divisionByZero
  /-- Undefined behaviour: `elements[i]` outside the allocated array. -/
  | outOfBounds
  /-- Undefined behaviour: an `int` result outside `[INT_MIN, INT_MAX]`. -/
  | signedOverflow
  /-- The call is parked in `cv.wait`: its predicate is false. -/
  | blocked
  deriving DecidableEq, Repr

deriving instance DecidableEq for Except

/-- The data members of `Queue<T>`, in declaration order; `elements` is the
array obtained from `new T[size]`. -/
structure Queue (T : Type) where
  elements : List T
  size : Int
  front : Int
  rear : Int
  count : Int
  deriving DecidableEq, Repr

/-- A member function body: from the queue before the call to the outcome of
the call and the queue after it.  A thrown exception leaves the queue as the
statements executed before the `throw` made it. -/
def Exec (T α : Type) : Type := Queue T → Except Halt α × Queue T

instance (T : Type) : Monad (Exec T) where
  pure a := fun q => (Except.ok a, q)
  bind m f := fun q =>
    match m q with
    | (Except.ok a, q') => f a q'
    | (Except.error h, q') => (Except.error h, q')

/-- Leave the member function without a value. -/
def halt {T α : Type} (h : Halt) : Exec T α := fun q => (Except.error h, q)

/-- Read all data members. -/
def getQ {T : Type} : Exec T (Queue T) := fun q => (Except.ok q, q)

/-- Assignment to the member `front`. -/
def setFront {T : Type} (v : Int) : Exec T Unit :=
  fun q => (Except.ok (), { q with front := v })

/-- Assignment to the member `rear`. -/
def setRear {T : Type} (v : Int) : Exec T Unit :=
  fun q => (Except.ok (), { q with rear := v })

/-- Assignment to the member `count`. -/
def setCount {T : Type} (v : Int) : Exec T Unit :=
  fun q => (Except.ok (), { q with count := v })

/-! ## `int` arithmetic and array access -/

/-- The `int` expression `a + b`. -/
def intAdd {T : Type} (a b : Int) : Exec T Int :=
  if INT_MIN ≤ a + b ∧ a + b ≤ INT_MAX then pure (a + b) else halt Halt.signedOverflow

/-- The `int` expression `a - b`. -/
def intSub {T : Type} (a b : Int) : Exec T Int :=
  if INT_MIN ≤ a - b ∧ a - b ≤ INT_MAX then pure (a - b) else halt Halt.signedOverflow

/-- The `int` expression `a % b`: remainder of the division truncated
towards zero. -/
def intMod {T : Type} (a b : Int) : Exec T Int :=
  if b = 0 then halt Halt.divisionByZero
  else if a = INT_MIN ∧ b = -1 then halt Halt.signedOverflow
  else pure (Int.tmod a b)

/-- The rvalue `elements[i]`. -/
def readAt {T : Type} (i : Int) : Exec T T := fun q =>
  if 0 ≤ i then
    match q.elements[i.toNat]? with
    | some x => (Except.ok x, q)
    | none => (Except.error Halt.outOfBounds, q)
  else (Except.error Halt.outOfBounds, q)

/-- The store `elements[i] = v`. -/
def writeAt {T : Type} (i : Int) (v : T) : Exec T Unit := fun q =>
  if 0 ≤ i ∧ i < q.elements.length then
    (Except.ok (), { q with elements := q.elements.set i.toNat v })
  else (Except.error Halt.outOfBounds, q)

/-! ## The member functions -/

/-- `Queue(int size)`: the member initialisers followed by
`elements = new T[size]`.  The array slots are filled by `default`. -/
def mkQueue {T : Type} [Inhabited T] (size : Int) : Except Halt (Queue T) :=
  if size < 0 then Except.error Halt.badArrayNewLength
  else Except.ok
    { elements := List.replicate size.toNat default
      size := size, front := 0, rear := 0, count := 0 }

/-- `void Push(T element)`. -/
def Push {T : Type} (element : T) : Exec T Unit := do
  let q ← getQ
  if q.count = q.size then
    -- Queue is full, drop the oldest element
    let f ← intAdd q.front 1
    let f ← intMod f q.size
    setFront f
    let c ← intSub q.count 1
    setCount c
  let q ← getQ
  writeAt q.rear element
  let r ← intAdd q.rear 1
  let r ← intMod r q.size
  setRear r
  let c ← intAdd q.count 1
  setCount c

/-- What wakes a caller parked inside a wait on `cv`: another thread has
completed `Push(v)` and notified, or the wake-up is spurious. -/
inductive WakeUp (T : Type) where
  | pushed (v : T)
  | spurious
  deriving DecidableEq, Repr

/-- What happens to the queue between the moment a waiting caller gives up
the lock and the moment it holds it again after the wake-up.  A wake-up
stands for at most one `Push` of another thread before the caller evaluates
its predicate again; schedules in which other threads complete more calls in
between are sequences of turns under the lock, see `Turn`. -/
def wake {T : Type} : WakeUp T → Exec T Unit
  | WakeUp.pushed v => Push v
  | WakeUp.spurious => pure ()

/-- `cv.wait(lock, pred)`, that is `while (!pred()) cv.wait(lock);`, run
against the wake-ups the caller receives.  When they are used up and `pred`
is still false the caller stays parked. -/
def cvWait {T : Type} (pred : Queue T → Bool) : List (WakeUp T) → Exec T Unit
  | [] => do
    let q ← getQ
    if pred q then pure () else halt Halt.blocked
  | w :: ws => do
    let q ← getQ
    if pred q then pure ()
    else
      wake w
      cvWait pred ws

/-- `cv.wait_for(lock, duration, pred)`, that is
`while (!pred()) if (cv.wait_until(lock, deadline) == timeout) return pred(); return true;`,
run against the wake-ups the caller receives before the deadline. -/
def cvWaitFor {T : Type} (pred : Queue T → Bool) : List (WakeUp T) → Exec T Bool
  | [] => do
    let q ← getQ
    pure (pred q)
  | w :: ws => do
    let q ← getQ
    if pred q then pure true
    else
      wake w
      cvWaitFor pred ws

/-- `T Pop()`; `wakeups` is what reaches the caller while it waits. -/
def Pop {T : Type} (wakeups : List (WakeUp T)) : Exec T T := do
  cvWait (fun q => decide (q.count > 0)) wakeups
  let q ← getQ
  let element ← readAt q.front
  let f ← intAdd q.front 1
  let f ← intMod f q.size
  setFront f
  let c ← intSub q.count 1
  setCount c
  pure element

/-- `T PopWithTimeout(int milliseconds)`; `wakeups` is what reaches the
caller within the `milliseconds` it is prepared to wait, so the duration
itself decides nothing more. -/
def PopWithTimeout {T : Type} (milliseconds : Int) (wakeups : List (WakeUp T)) :
    Exec T T := do
  let _duration := milliseconds
  if ¬ (← cvWaitFor (fun q => decide (q.count > 0)) wakeups) then
    halt (Halt.runtimeError timeoutMessage)
  else
    let q ← getQ
    let element ← readAt q.front
    let f ← intAdd q.front 1
    let f ← intMod f q.size
    setFront f
    let c ← intSub q.count 1
    setCount c
    pure element

/-- `int Count()`. -/
def Count {T : Type} (q : Queue T) : Int := q.count

/-- `int Size()`. -/
def Size {T : Type} (q : Queue T) : Int := q.size

/-! ## Runs, invariants and the list held by the ring -/

variable {T α β : Type}

/-- The data-model invariant of a queue with at least one slot: the capacity
is a positive `int`, the array has `size` slots, `front` is an index of it,
`count` lies between 0 and `size`, and `rear` is `count` slots after `front`,
circularly. -/
def WF (q : Queue T) : Prop :=
  0 < q.size ∧ q.size ≤ INT_MAX ∧ (q.elements.length : Int) = q.size ∧
  0 ≤ q.front ∧ q.front < q.size ∧ 0 ≤ q.count ∧ q.count ≤ q.size ∧
  q.rear = (q.front + q.count) % q.size

instance (q : Queue T) : Decidable (WF q) := by unfold WF; infer_instance

/-- The queue left by `Push(v)`. -/
def pushed (v : T) (q : Queue T) : Queue T :=
  { elements := q.elements.set q.rear.toNat v
    size := q.size
    front := if q.count = q.size then (q.front + 1) % q.size else q.front
    rear := (q.rear + 1) % q.size
    count := if q.count = q.size then q.size else q.count + 1 }

/-- The `count` slots read from `front` circularly. -/
def liveSlots (q : Queue T) : List (Option T) :=
  (List.range q.count.toNat).map
    (fun (i : Nat) => q.elements[((q.front + (i : Int)) % q.size).toNat]?)

/-- The queue left by a removal. -/
def popped (q : Queue T) : Queue T :=
  { q with front := (q.front + 1) % q.size, count := q.count - 1 }

/-- Push every value of the list, in order. -/
def pushAll : List T → Exec T Unit
  | [] => pure ()
  | v :: vs => do
    Push v
    pushAll vs

/-- Call `Pop` the given number of times, no other thread being active, and
collect the returned values in call order. -/
def popN : Nat → Exec T (List T)
  | 0 => pure []
  | n + 1 => do
    let x ← Pop []
    let xs ← popN n
    pure (x :: xs)

/-- Bounded FIFO list: append at the back, after dropping the first item when
the list already holds `c` items. -/
def fifoPush (c : Nat) (l : List T) (v : T) : List T :=
  (if l.length = c then l.tail else l) ++ [v]

/-- The ring buffer holds exactly the items of the list `l`, oldest first. -/
def Holds (q : Queue T) (l : List T) : Prop :=
  WF q ∧ liveSlots q = l.map some

/-- A call made by a client of the queue. -/
inductive Op (T : Type) where
  | push (v : T)
  | pop (wakeups : List (WakeUp T))
  | popWithTimeout (milliseconds : Int) (wakeups : List (WakeUp T))

/-- Make the call; a removal yields the removed value. -/
def perform : Op T → Exec T (Option T)
  | Op.push v => do
    Push v
    pure none
  | Op.pop ws => do
    let x ← Pop ws
    pure (some x)
  | Op.popWithTimeout ms ws => do
    let x ← PopWithTimeout ms ws
    pure (some x)

/-- The queue after each call of a client that makes the calls in order and
catches the timeout exception.  The run ends at a call that stays parked or
has undefined behaviour. -/
def trace : List (Op T) → Queue T → List (Queue T)
  | [], _ => []
  | op :: ops, q =>
    match perform op q with
    | (Except.ok _, q') => q' :: trace ops q'
    | (Except.error (Halt.runtimeError _), q') => q' :: trace ops q'
    | (Except.error _, _) => []

/-- The queue `q` is met in a run that starts with `Queue(c)`. -/
def ReachableFrom [Inhabited T] (c : Int) (q : Queue T) : Prop :=
  ∃ (q0 : Queue T) (ops : List (Op T)), mkQueue c = Except.ok q0 ∧ q ∈ q0 :: trace ops q0

/-- A queue built by `Queue(0)`: no slot, nothing ever stored. -/
def Degenerate (q : Queue T) : Prop :=
  q.size = 0 ∧ q.count = 0 ∧ q.front = 0

/-- The state of a queue built by `Queue(c)`. -/
def Sound (c : Int) (q : Queue T) : Prop :=
  q.size = c ∧ (WF q ∨ Degenerate q)

/-- The action never ends by throwing `std::runtime_error`. -/
def NoThrow (m : Exec T α) : Prop :=
  ∀ (q : Queue T) (w : String) (q' : Queue T), m q ≠ (Except.error (Halt.runtimeError w), q')

/-- One turn under the lock in an interleaving of concurrent callers: a
producer completes `Push(v)`, or the remover numbered `remover` holds the
lock inside `Pop` or `PopWithTimeout` and evaluates its wait predicate.
Every member function starts with `std::unique_lock<std::mutex> lock(mtx)`
and gives the lock up only at its end or while parked in the wait, so the
queue changes turn by turn, in the order in which the lock is taken. -/
inductive Turn (T : Type) where
  | push (v : T)
  | pop (remover : Nat)
  | popWithTimeout (remover : Nat) (milliseconds : Int)
  deriving DecidableEq, Repr

/-- The values handed to removers by an interleaving, each with the remover
that received it, in the order of the turns.  A remover that finds the queue
empty changes nothing: it stays parked, or its timed wait expires.  The run
ends at a turn with undefined behaviour. -/
def deliveries : List (Turn T) → Queue T → List (Nat × T)
  | [], _ => []
  | Turn.push v :: ts, q =>
    match Push v q with
    | (Except.ok _, q') => deliveries ts q'
    | (Except.error _, _) => []
  | Turn.pop r :: ts, q =>
    match Pop [] q with
    | (Except.ok x, q') => (r, x) :: deliveries ts q'
    | (Except.error Halt.blocked, q') => deliveries ts q'
    | (Except.error _, _) => []
  | Turn.popWithTimeout r ms :: ts, q =>
    match PopWithTimeout ms [] q with
    | (Except.ok x, q') => (r, x) :: deliveries ts q'
    | (Except.error (Halt.runtimeError _), q') => deliveries ts q'
    | (Except.error _, _) => []

/-- The values inserted by an interleaving, in the order of the turns. -/
def insertions : List (Turn T) → List T
  | [] => []
  | Turn.push v :: ts => v :: insertions ts
  | Turn.pop _ :: ts => insertions ts
  | Turn.popWithTimeout _ _ :: ts => insertions ts

/-- A call of a client that only pushes and pops. -/
inductive Call (T : Type) where
  | push (v : T)
  | pop
  deriving DecidableEq, Repr

/-- Make the calls in order on the ring buffer, no other thread being active,
and collect the values returned by the `Pop` calls. -/
def runCalls : List (Call T) → Exec T (List T)
  | [] => pure []
  | Call.push v :: cs => do
    Push v
    runCalls cs
  | Call.pop :: cs => do
    let x ← Pop []
    let xs ← runCalls cs
    pure (x :: xs)

/-- The same calls on the bounded FIFO list: `Push` is `fifoPush`, `Pop`
removes and returns the first item.  Yields the returned values and the final
list, or nothing when a `Pop` meets the empty list. -/
def fifoRun (c : Nat) : List (Call T) → List T → Option (List T × List T)
  | [], l => some ([], l)
  | Call.push v :: cs, l => fifoRun c cs (fifoPush c l v)
  | Call.pop :: _, [] => none
  | Call.pop :: cs, x :: l =>
    match fifoRun c cs l with
    | some (outs, l') => some (x :: outs, l')
    | none => none

/-! ## Lemmas -/

theorem bind_apply (m : Exec T α) (f : α → Exec T β) (q : Queue T) :
    (m >>= f) q = match m q with
      | (Except.ok a, q') => f a q'
      | (Except.error h, q') => (Except.error h, q') := rfl

theorem pure_apply (a : α) (q : Queue T) : (pure a : Exec T α) q = (Except.ok a, q) := rfl

theorem emod_wrap (x s : Int) (h0 : 0 ≤ x) (h1 : x < 2 * s) :
    x % s = if x < s then x else x - s := by
  split
  · exact Int.emod_eq_of_lt h0 (by assumption)
  · rw [Int.emod_eq_sub_self_emod]
    exact Int.emod_eq_of_lt (by omega) (by omega)

theorem intAdd_ok (a b : Int) (q : Queue T) (h : INT_MIN ≤ a + b ∧ a + b ≤ INT_MAX) :
    (intAdd a b : Exec T Int) q = (Except.ok (a + b), q) := by
  simp [intAdd, h, pure_apply]

theorem intSub_ok (a b : Int) (q : Queue T) (h : INT_MIN ≤ a - b ∧ a - b ≤ INT_MAX) :
    (intSub a b : Exec T Int) q = (Except.ok (a - b), q) := by
  simp [intSub, h, pure_apply]

theorem intMod_ok (a b : Int) (q : Queue T) (ha : 0 ≤ a) (hb : 0 < b) :
    (intMod a b : Exec T Int) q = (Except.ok (a % b), q) := by
  have h1 : b ≠ 0 := by omega
  have h2 : ¬ (a = INT_MIN ∧ b = -1) := by omega
  simp [intMod, h1, h2, pure_apply, Int.tmod_eq_emod ha (le_of_lt hb)]

theorem Push_eq (v : T) (q : Queue T) (h : WF q) : Push v q = (Except.ok (), pushed v q) := by
  obtain ⟨h1, h2, h3, h4, h5, h6, h7, h8⟩ := h
  have hr := emod_wrap (q.front + q.count) q.size (by omega) (by omega)
  have hI : INT_MAX = 2147483647 := rfl
  have hJ : INT_MIN = -2147483648 := rfl
  have hb : 0 ≤ q.rear ∧ q.rear < (q.elements.length : Int) := by
    split at hr <;> omega
  by_cases hc : q.count = q.size
  · simp only [Push, bind_apply, getQ, hc, if_true]
    rw [intAdd_ok _ _ _ (by omega)]
    simp only []
    rw [intMod_ok _ _ _ (by omega) h1]
    simp only [setFront]
    rw [intSub_ok _ _ _ (by omega)]
    simp only [setCount, pure_apply, writeAt]
    rw [if_pos hb]
    simp only []
    rw [intAdd_ok _ _ _ (by omega)]
    simp only []
    rw [intMod_ok _ _ _ (by omega) h1]
    simp only [setRear]
    rw [intAdd_ok _ _ _ (by omega)]
    simp [pushed, hc]
  · simp only [Push, bind_apply, getQ, hc, if_false, pure_apply, writeAt]
    rw [if_pos hb]
    simp only []
    rw [intAdd_ok _ _ _ (by omega)]
    simp only []
    rw [intMod_ok _ _ _ (by omega) h1]
    simp only [setRear]
    rw [intAdd_ok _ _ _ (by omega)]
    simp [pushed, hc, setCount]

theorem WF_pushed (v : T) (q : Queue T) (h : WF q) : WF (pushed v q) := by
  obtain ⟨h1, h2, h3, h4, h5, h6, h7, h8⟩ := h
  have hr := emod_wrap (q.front + q.count) q.size (by omega) (by omega)
  have hf := emod_wrap (q.front + 1) q.size (by omega) (by omega)
  have hb : 0 ≤ q.rear ∧ q.rear < q.size := by
    split at hr <;> omega
  have hr1 := emod_wrap (q.rear + 1) q.size (by omega) (by omega)
  by_cases hc : q.count = q.size
  · simp only [WF, pushed, hc, if_true, List.length_set]
    have hw := emod_wrap ((q.front + 1) % q.size + q.size) q.size (by split at hf <;> omega)
      (by split at hf <;> omega)
    refine ⟨h1, h2, h3, ?_, ?_, ?_, ?_, ?_⟩ <;>
      (split at hf <;> split at hr <;> split at hr1 <;> split at hw <;> omega)
  · simp only [WF, pushed, hc, if_false, List.length_set]
    have hw := emod_wrap (q.front + (q.count + 1)) q.size (by omega) (by omega)
    refine ⟨h1, h2, h3, h4, h5, ?_, ?_, ?_⟩ <;>
      (split at hf <;> split at hr <;> split at hr1 <;> split at hw <;> omega)

theorem getElem?_liveSlots (q : Queue T) (n : Nat) :
    (liveSlots q)[n]? =
      if n < q.count.toNat then some (q.elements[((q.front + (n : Int)) % q.size).toNat]?)
      else none := by
  unfold liveSlots
  rw [List.getElem?_map]
  split
  · rw [List.getElem?_range (by assumption)]; rfl
  · rw [List.getElem?_eq_none (by simp; omega)]; rfl

theorem length_liveSlots (q : Queue T) : (liveSlots q).length = q.count.toNat := by
  simp [liveSlots]

theorem liveSlots_pushed (v : T) (q : Queue T) (h : WF q) :
    liveSlots (pushed v q) =
      (if q.count = q.size then (liveSlots q).tail else liveSlots q) ++ [some v] := by
  obtain ⟨h1, h2, h3, h4, h5, h6, h7, h8⟩ := h
  have hr := emod_wrap (q.front + q.count) q.size (by omega) (by omega)
  have hf := emod_wrap (q.front + 1) q.size (by omega) (by omega)
  apply List.ext_getElem?
  intro n
  rw [getElem?_liveSlots]
  by_cases hc : q.count = q.size
  · simp only [pushed, hc, if_true]
    have hn := emod_wrap ((q.front + 1) % q.size + (n : Int)) q.size (by split at hf <;> omega)
    rcases Nat.lt_trichotomy (n + 1) q.size.toNat with hlt | heq | hgt
    · rw [if_pos (by omega), List.getElem?_append_left
          (by rw [List.length_tail, length_liveSlots]; omega),
        List.getElem?_tail, getElem?_liveSlots, if_pos (by omega), List.getElem?_set_ne]
      · have hidx : ((q.front + 1) % q.size + (n : Int)) % q.size =
            (q.front + ((n + 1 : Nat) : Int)) % q.size := by
          rw [Int.emod_add_emod]; congr 1; push_cast; ring
        rw [hidx]
      · have := hn (by split at hf <;> omega)
        split at hr <;> split at hf <;> split at this <;> omega
    · have hlen : ((liveSlots q).tail).length = n := by
        rw [List.length_tail, length_liveSlots]; omega
      rw [if_pos (by omega), List.getElem?_append_right (by omega), hlen]
      have := hn (by split at hf <;> omega)
      have hidx : (((q.front + 1) % q.size + (n : Int)) % q.size).toNat = q.rear.toNat := by
        split at hr <;> split at hf <;> split at this <;> omega
      rw [hidx, List.getElem?_set_self (by split at hr <;> omega)]
      simp
    · rw [if_neg (by omega), List.getElem?_eq_none]
      simp only [List.length_append, List.length_tail, length_liveSlots, List.length_singleton]
      omega
  · simp only [pushed, hc, if_false]
    have hn := emod_wrap (q.front + (n : Int)) q.size (by omega)
    rcases Nat.lt_trichotomy n q.count.toNat with hlt | heq | hgt
    · rw [if_pos (by omega), List.getElem?_append_left (by rw [length_liveSlots]; exact hlt),
        getElem?_liveSlots, if_pos hlt, List.getElem?_set_ne]
      have := hn (by omega)
      split at hr <;> split at this <;> omega
    · rw [if_pos (by omega), List.getElem?_append_right (by rw [length_liveSlots]; omega),
        length_liveSlots]
      have := hn (by omega)
      have hidx : ((q.front + (n : Int)) % q.size).toNat = q.rear.toNat := by
        split at hr <;> split at this <;> omega
      rw [hidx, List.getElem?_set_self (by split at hr <;> omega)]
      simp [heq]
    · rw [if_neg (by omega), List.getElem?_eq_none]
      simp only [List.length_append, length_liveSlots, List.length_singleton]
      omega

theorem cvWait_of_pred (pred : Queue T → Bool) (ws : List (WakeUp T)) (q : Queue T)
    (h : pred q = true) : cvWait pred ws q = (Except.ok (), q) := by
  cases ws <;> simp [cvWait, bind_apply, getQ, h, pure_apply]

theorem cvWaitFor_of_pred (pred : Queue T → Bool) (ws : List (WakeUp T)) (q : Queue T)
    (h : pred q = true) : cvWaitFor pred ws q = (Except.ok true, q) := by
  cases ws <;> simp [cvWaitFor, bind_apply, getQ, h, pure_apply]

theorem readAt_ok (q : Queue T) (i : Int) (x : T) (hi : 0 ≤ i)
    (hx : q.elements[i.toNat]? = some x) : readAt i q = (Except.ok x, q) := by
  simp [readAt, hi, hx]

theorem front_slot (q : Queue T) (h : WF q) : ∃ x, q.elements[q.front.toNat]? = some x := by
  obtain ⟨h1, h2, h3, h4, h5, h6, h7, h8⟩ := h
  have : q.front.toNat < q.elements.length := by omega
  exact ⟨q.elements[q.front.toNat], List.getElem?_eq_getElem this⟩

theorem Pop_eq (ws : List (WakeUp T)) (q : Queue T) (x : T) (h : WF q) (hpos : 0 < q.count)
    (hx : q.elements[q.front.toNat]? = some x) : Pop ws q = (Except.ok x, popped q) := by
  obtain ⟨h1, h2, h3, h4, h5, h6, h7, h8⟩ := h
  have hI : INT_MAX = 2147483647 := rfl
  have hJ : INT_MIN = -2147483648 := rfl
  simp only [Pop, bind_apply]
  rw [cvWait_of_pred _ _ _ (by simpa using hpos)]
  simp only [getQ]
  rw [readAt_ok _ _ x h4 hx]
  simp only []
  rw [intAdd_ok _ _ _ (by omega)]
  simp only []
  rw [intMod_ok _ _ _ (by omega) h1]
  simp only [setFront]
  rw [intSub_ok _ _ _ (by omega)]
  simp [setCount, pure_apply, popped]

theorem PopWithTimeout_eq (ms : Int) (ws : List (WakeUp T)) (q : Queue T) (x : T) (h : WF q)
    (hpos : 0 < q.count) (hx : q.elements[q.front.toNat]? = some x) :
    PopWithTimeout ms ws q = (Except.ok x, popped q) := by
  obtain ⟨h1, h2, h3, h4, h5, h6, h7, h8⟩ := h
  have hI : INT_MAX = 2147483647 := rfl
  have hJ : INT_MIN = -2147483648 := rfl
  simp only [PopWithTimeout, bind_apply]
  rw [cvWaitFor_of_pred _ _ _ (by simpa using hpos)]
  simp only [getQ, not_true_eq_false, if_false, bind_apply]
  rw [readAt_ok _ _ x h4 hx]
  simp only []
  rw [intAdd_ok _ _ _ (by omega)]
  simp only []
  rw [intMod_ok _ _ _ (by omega) h1]
  simp only [setFront]
  rw [intSub_ok _ _ _ (by omega)]
  simp [setCount, pure_apply, popped]

theorem WF_popped (q : Queue T) (h : WF q) (hpos : 0 < q.count) : WF (popped q) := by
  obtain ⟨h1, h2, h3, h4, h5, h6, h7, h8⟩ := h
  have hr := emod_wrap (q.front + q.count) q.size (by omega) (by omega)
  have hf := emod_wrap (q.front + 1) q.size (by omega) (by omega)
  have hw := emod_wrap ((q.front + 1) % q.size + (q.count - 1)) q.size
    (by split at hf <;> omega) (by split at hf <;> omega)
  simp only [WF, popped]
  refine ⟨h1, h2, h3, ?_, ?_, ?_, ?_, ?_⟩ <;>
    (split at hf <;> split at hr <;> split at hw <;> omega)

theorem liveSlots_popped (q : Queue T) (h : WF q) (hpos : 0 < q.count) :
    liveSlots q = q.elements[q.front.toNat]? :: liveSlots (popped q) := by
  obtain ⟨h1, h2, h3, h4, h5, h6, h7, h8⟩ := h
  apply List.ext_getElem?
  intro n
  rw [getElem?_liveSlots]
  cases n with
  | zero =>
    rw [if_pos (by omega)]
    simp [Int.emod_eq_of_lt h4 h5]
  | succ k =>
    rw [List.getElem?_cons_succ, getElem?_liveSlots]
    have hidx : ((q.front + 1) % q.size + (k : Int)) % q.size =
        (q.front + ((k + 1 : Nat) : Int)) % q.size := by
      rw [Int.emod_add_emod]; congr 1; push_cast; ring
    simp only [popped, hidx]
    by_cases hk : k + 1 < q.count.toNat
    · rw [if_pos hk, if_pos (by omega)]
    · rw [if_neg hk, if_neg (by omega)]

theorem Holds.length_eq {q : Queue T} {l : List T} (h : Holds q l) :
    (l.length : Int) = q.count := by
  have := congrArg List.length h.2
  rw [length_liveSlots, List.length_map] at this
  have := h.1.2.2.2.2.2.1
  omega

theorem Holds_mkQueue [Inhabited T] (c : Int) (hc : 0 < c) (hmax : c ≤ INT_MAX) :
    ∃ q0 : Queue T, mkQueue c = Except.ok q0 ∧ Holds q0 [] ∧ q0.size = c := by
  refine ⟨{ elements := List.replicate c.toNat default
            size := c, front := 0, rear := 0, count := 0 }, ?_, ?_, rfl⟩
  · simp only [mkQueue, if_neg (not_lt.mpr (le_of_lt hc))]
  refine ⟨⟨hc, hmax, ?_, le_refl _, hc, le_refl _, le_of_lt hc, ?_⟩, ?_⟩
  · simp only [List.length_replicate]; omega
  · simp
  · simp [liveSlots]

theorem Holds_pushed (v : T) {q : Queue T} {l : List T} (h : Holds q l) :
    Holds (pushed v q) (fifoPush q.size.toNat l v) := by
  refine ⟨WF_pushed v q h.1, ?_⟩
  rw [liveSlots_pushed v q h.1, h.2]
  have hlen := h.length_eq
  have := h.1.1
  unfold fifoPush
  by_cases hc : q.count = q.size
  · rw [if_pos hc, if_pos (by omega)]; simp
  · rw [if_neg hc, if_neg (by omega)]; simp

theorem Holds_popped (ws : List (WakeUp T)) {q : Queue T} {x : T} {l : List T}
    (h : Holds q (x :: l)) : Pop ws q = (Except.ok x, popped q) ∧ Holds (popped q) l := by
  have hlen := h.length_eq
  have hpos : 0 < q.count := by simp at hlen; omega
  have hl := h.2
  rw [liveSlots_popped q h.1 hpos, List.map_cons, List.cons.injEq] at hl
  exact ⟨Pop_eq ws q x h.1 hpos hl.1, WF_popped q h.1 hpos, hl.2⟩

theorem pushAll_Holds (xs : List T) : ∀ {q : Queue T} {l : List T}, Holds q l →
    ∃ q', pushAll xs q = (Except.ok (), q') ∧ q'.size = q.size ∧
      Holds q' (xs.foldl (fifoPush q.size.toNat) l) := by
  induction xs with
  | nil => intro q l h; exact ⟨q, rfl, rfl, h⟩
  | cons v vs ih =>
    intro q l h
    obtain ⟨q', h1, h2, h3⟩ := ih (Holds_pushed v h)
    refine ⟨q', ?_, ?_, ?_⟩
    · simp only [pushAll, bind_apply, Push_eq v q h.1, h1]
    · rw [h2]; rfl
    · simpa [pushed] using h3

theorem popN_Holds (l1 : List T) : ∀ (q : Queue T) (l2 : List T), Holds q (l1 ++ l2) →
    ∃ q', popN l1.length q = (Except.ok l1, q') ∧ Holds q' l2 := by
  induction l1 with
  | nil => intro q l2 h; exact ⟨q, rfl, h⟩
  | cons x xs ih =>
    intro q l2 h
    obtain ⟨hp, hh⟩ := Holds_popped [] (h : Holds q (x :: (xs ++ l2)))
    obtain ⟨q', h1, h2⟩ := ih _ _ hh
    exact ⟨q', by simp only [List.length_cons, popN, bind_apply, hp, h1, pure_apply], h2⟩

theorem fifoPush_eq_drop (c : Nat) (l : List T) (v : T) (hl : l.length ≤ c) (hc : 0 < c) :
    fifoPush c l v = (l ++ [v]).drop ((l ++ [v]).length - c) := by
  unfold fifoPush
  by_cases h : l.length = c
  · rw [if_pos h]
    have : (l ++ [v]).length - c = 1 := by simp; omega
    rw [this]
    cases l with
    | nil => simp at h; omega
    | cons a t => simp
  · rw [if_neg h]
    have : (l ++ [v]).length - c = 0 := by simp; omega
    rw [this]; rfl

theorem foldl_fifoPush (c : Nat) (hc : 0 < c) (xs : List T) : ∀ l : List T, l.length ≤ c →
    xs.foldl (fifoPush c) l = (l ++ xs).drop ((l ++ xs).length - c) := by
  induction xs with
  | nil =>
    intro l hl
    have : (l ++ ([] : List T)).length - c = 0 := by simp; omega
    rw [this]; simp
  | cons v vs ih =>
    intro l hl
    have hlen : (fifoPush c l v).length ≤ c := by
      rw [fifoPush_eq_drop c l v hl hc]; simp; omega
    rw [List.foldl_cons, ih _ hlen, fifoPush_eq_drop c l v hl hc]
    have hk : (l ++ [v]).length - c ≤ (l ++ [v]).length := Nat.sub_le _ _
    rw [← List.drop_append_of_le_length hk, List.drop_drop]
    simp only [List.append_assoc, List.singleton_append, List.length_append, List.length_drop,
      List.length_cons]
    congr 1
    simp only [List.length_nil]
    omega

theorem Push_Degenerate (v : T) (q : Queue T) (h : Degenerate q) :
    Push v q = (Except.error Halt.divisionByZero, q) := by
  obtain ⟨h1, h2, h3⟩ := h
  simp only [Push, bind_apply, getQ, h1, h2, h3, if_true]
  rw [intAdd_ok _ _ _ (by decide)]
  simp [intMod, halt]

theorem Push_keeps (c : Int) (v : T) (q : Queue T) (h : Sound c q) :
    Sound c (Push v q).2 := by
  obtain ⟨hs, h | h⟩ := h
  · rw [Push_eq v q h]; exact ⟨hs, Or.inl (WF_pushed v q h)⟩
  · rw [Push_Degenerate v q h]; exact ⟨hs, Or.inr h⟩

theorem cvWait_nil (pred : Queue T → Bool) (q : Queue T) :
    cvWait pred [] q =
      if pred q = true then (Except.ok (), q) else (Except.error Halt.blocked, q) := by
  by_cases hp : pred q = true <;> simp [cvWait, bind_apply, getQ, hp, pure_apply, halt]

theorem cvWait_cons (pred : Queue T → Bool) (w : WakeUp T) (ws : List (WakeUp T))
    (q : Queue T) :
    cvWait pred (w :: ws) q =
      if pred q = true then (Except.ok (), q)
      else match wake w q with
        | (Except.ok _, q1) => cvWait pred ws q1
        | (Except.error h, q1) => (Except.error h, q1) := by
  by_cases hp : pred q = true
  · simp [cvWait, bind_apply, getQ, hp, pure_apply]
  · simp only [cvWait, bind_apply, getQ, hp, Bool.false_eq_true, if_false]
    rcases wake w q with ⟨r, q1⟩
    cases r <;> rfl

theorem cvWaitFor_nil (pred : Queue T → Bool) (q : Queue T) :
    cvWaitFor pred [] q = (Except.ok (pred q), q) := by
  simp [cvWaitFor, bind_apply, getQ, pure_apply]

theorem cvWaitFor_cons (pred : Queue T → Bool) (w : WakeUp T) (ws : List (WakeUp T))
    (q : Queue T) :
    cvWaitFor pred (w :: ws) q =
      if pred q = true then (Except.ok true, q)
      else match wake w q with
        | (Except.ok _, q1) => cvWaitFor pred ws q1
        | (Except.error h, q1) => (Except.error h, q1) := by
  by_cases hp : pred q = true
  · simp [cvWaitFor, bind_apply, getQ, hp, pure_apply]
  · simp only [cvWaitFor, bind_apply, getQ, hp, Bool.false_eq_true, if_false]
    rcases wake w q with ⟨r, q1⟩
    cases r <;> rfl

theorem wake_keeps (c : Int) (w : WakeUp T) (q : Queue T) (h : Sound c q) :
    Sound c (wake w q).2 := by
  cases w with
  | pushed v => exact Push_keeps c v q h
  | spurious => exact h

theorem cvWait_keeps (c : Int) (pred : Queue T → Bool) (ws : List (WakeUp T)) :
    ∀ q : Queue T, Sound c q → Sound c (cvWait pred ws q).2 := by
  induction ws with
  | nil =>
    intro q h
    rw [cvWait_nil]
    by_cases hp : pred q = true <;> simp [hp, h]
  | cons w ws ih =>
    intro q h
    rw [cvWait_cons]
    by_cases hp : pred q = true
    · simp [hp, h]
    · have hk := wake_keeps c w q h
      rw [if_neg hp]
      rcases hq : wake w q with ⟨r, q1⟩
      rw [hq] at hk
      cases r with
      | ok u => exact ih q1 hk
      | error e => exact hk

theorem cvWaitFor_keeps (c : Int) (pred : Queue T → Bool) (ws : List (WakeUp T)) :
    ∀ q : Queue T, Sound c q → Sound c (cvWaitFor pred ws q).2 := by
  induction ws with
  | nil =>
    intro q h
    rw [cvWaitFor_nil]
    exact h
  | cons w ws ih =>
    intro q h
    rw [cvWaitFor_cons]
    by_cases hp : pred q = true
    · simp [hp, h]
    · have hk := wake_keeps c w q h
      rw [if_neg hp]
      rcases hq : wake w q with ⟨r, q1⟩
      rw [hq] at hk
      cases r with
      | ok u => exact ih q1 hk
      | error e => exact hk

theorem cvWait_ok (pred : Queue T → Bool) (ws : List (WakeUp T)) :
    ∀ q q1 : Queue T, cvWait pred ws q = (Except.ok (), q1) → pred q1 = true := by
  induction ws with
  | nil =>
    intro q q1 h
    rw [cvWait_nil] at h
    by_cases hp : pred q = true
    · rw [if_pos hp] at h; cases h; exact hp
    · rw [if_neg hp] at h; cases h
  | cons w ws ih =>
    intro q q1 h
    rw [cvWait_cons] at h
    by_cases hp : pred q = true
    · rw [if_pos hp] at h; cases h; exact hp
    · rw [if_neg hp] at h
      rcases hq : wake w q with ⟨r, q2⟩
      rw [hq] at h
      cases r with
      | ok u => exact ih q2 q1 h
      | error e => cases h

theorem cvWaitFor_ok (pred : Queue T → Bool) (ws : List (WakeUp T)) :
    ∀ (q q1 : Queue T) (b : Bool), cvWaitFor pred ws q = (Except.ok b, q1) → b = pred q1 := by
  induction ws with
  | nil =>
    intro q q1 b h
    rw [cvWaitFor_nil] at h
    cases h; rfl
  | cons w ws ih =>
    intro q q1 b h
    rw [cvWaitFor_cons] at h
    by_cases hp : pred q = true
    · rw [if_pos hp] at h; cases h; exact hp.symm
    · rw [if_neg hp] at h
      rcases hq : wake w q with ⟨r, q2⟩
      rw [hq] at h
      cases r with
      | ok u => exact ih q2 q1 b h
      | error e => cases h

theorem Pop_resume (ws : List (WakeUp T)) (q q1 : Queue T)
    (h : cvWait (fun q => decide (q.count > 0)) ws q = (Except.ok (), q1)) :
    Pop ws q = Pop [] q1 := by
  have hp := cvWait_ok _ ws q q1 h
  simp only [Pop, bind_apply, h]
  rw [cvWait_nil, if_pos hp]

theorem Pop_parked (ws : List (WakeUp T)) (q q1 : Queue T) (e : Halt)
    (h : cvWait (fun q => decide (q.count > 0)) ws q = (Except.error e, q1)) :
    Pop ws q = (Except.error e, q1) := by
  simp only [Pop, bind_apply, h]

theorem PopWithTimeout_resume (ms : Int) (ws : List (WakeUp T)) (q q1 : Queue T)
    (h : cvWaitFor (fun q => decide (q.count > 0)) ws q = (Except.ok true, q1)) :
    PopWithTimeout ms ws q = PopWithTimeout ms [] q1 := by
  have hp := (cvWaitFor_ok _ ws q q1 true h).symm
  simp only [PopWithTimeout, bind_apply, h]
  rw [cvWaitFor_nil, hp]
  simp

theorem PopWithTimeout_expired (ms : Int) (ws : List (WakeUp T)) (q q1 : Queue T)
    (h : cvWaitFor (fun q => decide (q.count > 0)) ws q = (Except.ok false, q1)) :
    PopWithTimeout ms ws q = (Except.error (Halt.runtimeError timeoutMessage), q1) := by
  simp [PopWithTimeout, bind_apply, h, halt]

theorem PopWithTimeout_parked (ms : Int) (ws : List (WakeUp T)) (q q1 : Queue T) (e : Halt)
    (h : cvWaitFor (fun q => decide (q.count > 0)) ws q = (Except.error e, q1)) :
    PopWithTimeout ms ws q = (Except.error e, q1) := by
  simp only [PopWithTimeout, bind_apply, h]

theorem Sound.wf_of_pos {c : Int} {q : Queue T} (h : Sound c q) (hpos : 0 < q.count) : WF q := by
  rcases h.2 with h | h
  · exact h
  · have := h.2.1; omega

theorem Pop_keeps (c : Int) (ws : List (WakeUp T)) (q : Queue T) (h : Sound c q) :
    Sound c (Pop ws q).2 := by
  have hk := cvWait_keeps c (fun q => decide (q.count > 0)) ws q h
  rcases hw : cvWait (fun q => decide (q.count > 0)) ws q with ⟨r, q1⟩
  rw [hw] at hk
  cases r with
  | error e => rw [Pop_parked ws q q1 e hw]; exact hk
  | ok u =>
    have hpos : 0 < q1.count := by simpa using cvWait_ok _ ws q q1 hw
    have hwf := hk.wf_of_pos hpos
    obtain ⟨x, hx⟩ := front_slot q1 hwf
    rw [Pop_resume ws q q1 hw, Pop_eq [] q1 x hwf hpos hx]
    exact ⟨hk.1, Or.inl (WF_popped q1 hwf hpos)⟩

theorem PopWithTimeout_keeps (c : Int) (ms : Int) (ws : List (WakeUp T)) (q : Queue T)
    (h : Sound c q) : Sound c (PopWithTimeout ms ws q).2 := by
  have hk := cvWaitFor_keeps c (fun q => decide (q.count > 0)) ws q h
  rcases hw : cvWaitFor (fun q => decide (q.count > 0)) ws q with ⟨r, q1⟩
  rw [hw] at hk
  cases r with
  | error e => rw [PopWithTimeout_parked ms ws q q1 e hw]; exact hk
  | ok b =>
    cases b with
    | false => rw [PopWithTimeout_expired ms ws q q1 hw]; exact hk
    | true =>
      have hpos : 0 < q1.count := by simpa using (cvWaitFor_ok _ ws q q1 true hw).symm
      have hwf := hk.wf_of_pos hpos
      obtain ⟨x, hx⟩ := front_slot q1 hwf
      rw [PopWithTimeout_resume ms ws q q1 hw, PopWithTimeout_eq ms [] q1 x hwf hpos hx]
      exact ⟨hk.1, Or.inl (WF_popped q1 hwf hpos)⟩

theorem snd_bind_pure {β : Type} (m : Exec T α) (f : α → β) (q : Queue T) :
    ((m >>= fun a => pure (f a)) q).2 = (m q).2 := by
  rw [bind_apply]
  rcases m q with ⟨r, q1⟩
  cases r <;> rfl

theorem perform_keeps (c : Int) (op : Op T) (q : Queue T) (h : Sound c q) :
    Sound c (perform op q).2 := by
  cases op with
  | push v => simpa only [perform, snd_bind_pure] using Push_keeps c v q h
  | pop ws => simpa only [perform, snd_bind_pure] using Pop_keeps c ws q h
  | popWithTimeout ms ws =>
    simpa only [perform, snd_bind_pure] using PopWithTimeout_keeps c ms ws q h

theorem trace_keeps (c : Int) (ops : List (Op T)) :
    ∀ q0 : Queue T, Sound c q0 → ∀ q ∈ trace ops q0, Sound c q := by
  induction ops with
  | nil => intro q0 _ q hq; simp [trace] at hq
  | cons op ops ih =>
    intro q0 h0 q hq
    have hk := perform_keeps c op q0 h0
    unfold trace at hq
    rcases hp : perform op q0 with ⟨r, q1⟩
    rw [hp] at hq hk
    cases r with
    | ok a =>
      simp only [List.mem_cons] at hq
      rcases hq with rfl | hq
      · exact hk
      · exact ih q1 hk q hq
    | error e =>
      cases e <;> simp only [List.mem_cons, List.not_mem_nil] at hq
      rcases hq with rfl | hq
      · exact hk
      · exact ih q1 hk q hq

theorem Sound_mkQueue [Inhabited T] (c : Int) (hmax : c ≤ INT_MAX) (q0 : Queue T)
    (h : mkQueue c = Except.ok q0) : Sound c q0 := by
  unfold mkQueue at h
  by_cases hneg : c < 0
  · rw [if_pos hneg] at h; cases h
  · rw [if_neg hneg] at h
    cases h
    refine ⟨rfl, ?_⟩
    by_cases hz : c = 0
    · exact Or.inr ⟨hz, rfl, rfl⟩
    · have hpos : 0 < c := by omega
      refine Or.inl ⟨hpos, hmax, ?_, le_refl _, hpos, le_refl _, le_of_lt hpos, ?_⟩
      · simp only [List.length_replicate]; omega
      · simp

theorem ReachableFrom.sound [Inhabited T] {c : Int} {q : Queue T} (h : ReachableFrom c q)
    (hmax : c ≤ INT_MAX) : Sound c q := by
  obtain ⟨q0, ops, h0, hq⟩ := h
  have hs := Sound_mkQueue c hmax q0 h0
  rcases List.mem_cons.mp hq with rfl | hq
  · exact hs
  · exact trace_keeps c ops q0 hs q hq

theorem ReachableFrom.wf [Inhabited T] {c : Int} {q : Queue T} (h : ReachableFrom c q)
    (hc : 0 < c) (hmax : c ≤ INT_MAX) : WF q := by
  obtain ⟨hs, h | h⟩ := h.sound hmax
  · exact h
  · have := h.1; omega

theorem NoThrow.bind {m : Exec T α} {f : α → Exec T β} (hm : NoThrow m)
    (hf : ∀ a, NoThrow (f a)) : NoThrow (m >>= f) := by
  intro q w q' h
  rw [bind_apply] at h
  rcases hq : m q with ⟨r, q1⟩
  rw [hq] at h
  cases r with
  | ok a => exact hf a q1 w q' h
  | error e =>
    have h2 : ((Except.error e : Except Halt β), q1) = (Except.error (Halt.runtimeError w), q') := h
    cases h2
    exact hm q w q' hq

theorem NoThrow.pure (a : α) : NoThrow (pure a : Exec T α) := by
  intro q w q' h; cases h

theorem NoThrow.getQ : NoThrow (getQ : Exec T (Queue T)) := by
  intro q w q' h; cases h

theorem NoThrow.setFront (v : Int) : NoThrow (setFront v : Exec T Unit) := by
  intro q w q' h; cases h

theorem NoThrow.setCount (v : Int) : NoThrow (setCount v : Exec T Unit) := by
  intro q w q' h; cases h

theorem NoThrow.intAdd (a b : Int) : NoThrow (intAdd a b : Exec T Int) := by
  intro q w q' h
  unfold BoschQueue.intAdd at h
  split at h <;> cases h

theorem NoThrow.intSub (a b : Int) : NoThrow (intSub a b : Exec T Int) := by
  intro q w q' h
  unfold BoschQueue.intSub at h
  split at h <;> cases h

theorem NoThrow.intMod (a b : Int) : NoThrow (intMod a b : Exec T Int) := by
  intro q w q' h
  unfold BoschQueue.intMod at h
  split at h
  · cases h
  · split at h <;> cases h

theorem NoThrow.readAt (i : Int) : NoThrow (readAt i : Exec T T) := by
  intro q w q' h
  unfold BoschQueue.readAt at h
  split at h
  · split at h <;> cases h
  · cases h

theorem removal_never_throws (ms : Int) (q : Queue T) (hpos : 0 < q.count) :
    ∀ (w : String) (q' : Queue T),
      PopWithTimeout ms [] q ≠ (Except.error (Halt.runtimeError w), q') := by
  have hp : decide (q.count > 0) = true := by simpa using hpos
  have hb : NoThrow (do
      let q ← (getQ : Exec T (Queue T))
      let element ← readAt q.front
      let f ← intAdd q.front 1
      let f ← intMod f q.size
      setFront f
      let c ← intSub q.count 1
      setCount c
      pure element) :=
    NoThrow.bind NoThrow.getQ fun q =>
      NoThrow.bind (NoThrow.readAt _) fun x =>
      NoThrow.bind (NoThrow.intAdd _ _) fun _ =>
      NoThrow.bind (NoThrow.intMod _ _) fun _ =>
      NoThrow.bind (NoThrow.setFront _) fun _ =>
      NoThrow.bind (NoThrow.intSub _ _) fun _ =>
      NoThrow.bind (NoThrow.setCount _) fun _ => NoThrow.pure x
  intro w q' h
  refine hb q w q' ?_
  rw [← h]
  unfold PopWithTimeout
  rw [bind_apply (cvWaitFor _ _), cvWaitFor_nil]
  simp only [hp, not_true_eq_false, if_false]

theorem Pop_of_empty (q : Queue T) (h : q.count = 0) :
    Pop [] q = (Except.error Halt.blocked, q) := by
  apply Pop_parked
  rw [cvWait_nil, if_neg (by simp [h])]

theorem PopWithTimeout_of_empty (ms : Int) (q : Queue T) (h : q.count = 0) :
    PopWithTimeout ms [] q = (Except.error (Halt.runtimeError timeoutMessage), q) := by
  apply PopWithTimeout_expired
  rw [cvWaitFor_nil]
  simp [h]

theorem Holds.count_nil {q : Queue T} (h : Holds q []) : q.count = 0 := by
  have := h.length_eq
  simpa using this.symm

theorem Holds.count_cons {q : Queue T} {x : T} {l : List T} (h : Holds q (x :: l)) :
    0 < q.count := by
  have := h.length_eq
  simp only [List.length_cons, Nat.cast_add, Nat.cast_one] at this
  omega

theorem Holds_popped_timeout (ms : Int) (ws : List (WakeUp T)) {q : Queue T} {x : T}
    {l : List T} (h : Holds q (x :: l)) :
    PopWithTimeout ms ws q = (Except.ok x, popped q) ∧ Holds (popped q) l := by
  have hpos := h.count_cons
  have hl := h.2
  rw [liveSlots_popped q h.1 hpos, List.map_cons, List.cons.injEq] at hl
  exact ⟨PopWithTimeout_eq ms ws q x h.1 hpos hl.1, WF_popped q h.1 hpos, hl.2⟩

theorem fifoPush_sublist (c : Nat) (l : List T) (v : T) : (fifoPush c l v).Sublist (l ++ [v]) := by
  unfold fifoPush
  split
  · exact List.Sublist.append (List.tail_sublist l) (List.Sublist.refl _)
  · exact List.Sublist.refl _

theorem deliveries_sublist (ts : List (Turn T)) : ∀ (q : Queue T) (l : List T), Holds q l →
    ((deliveries ts q).map Prod.snd).Sublist (l ++ insertions ts) := by
  induction ts with
  | nil => intro q l _; simp [deliveries]
  | cons t ts ih =>
    intro q l h
    cases t with
    | push v =>
      have hs := ih _ _ (Holds_pushed v h)
      simp only [deliveries, Push_eq v q h.1, insertions]
      refine hs.trans ?_
      have := (fifoPush_sublist q.size.toNat l v).append (List.Sublist.refl (insertions ts))
      simpa using this
    | pop r =>
      cases l with
      | nil =>
        simp only [deliveries, Pop_of_empty q h.count_nil, insertions]
        exact ih q [] h
      | cons x l =>
        obtain ⟨hp, hh⟩ := Holds_popped [] h
        simp only [deliveries, hp, insertions, List.map_cons, List.cons_append]
        exact (ih _ _ hh).cons₂ x
    | popWithTimeout r ms =>
      cases l with
      | nil =>
        simp only [deliveries, PopWithTimeout_of_empty ms q h.count_nil, insertions]
        exact ih q [] h
      | cons x l =>
        obtain ⟨hp, hh⟩ := Holds_popped_timeout ms [] h
        simp only [deliveries, hp, insertions, List.map_cons, List.cons_append]
        exact (ih _ _ hh).cons₂ x

theorem runCalls_Holds (cs : List (Call T)) :
    ∀ (q : Queue T) (l outs l' : List T), Holds q l →
      fifoRun q.size.toNat cs l = some (outs, l') →
      ∃ q' : Queue T, runCalls cs q = (Except.ok outs, q') ∧ Holds q' l' ∧ q'.size = q.size := by
  induction cs with
  | nil =>
    intro q l outs l' h hrun
    simp only [fifoRun, Option.some.injEq, Prod.mk.injEq] at hrun
    obtain ⟨rfl, rfl⟩ := hrun
    exact ⟨q, rfl, h, rfl⟩
  | cons c cs ih =>
    intro q l outs l' h hrun
    cases c with
    | push v =>
      simp only [fifoRun] at hrun
      obtain ⟨q', h1, h2, h3⟩ := ih (pushed v q) _ outs l' (Holds_pushed v h) hrun
      exact ⟨q', by simp only [runCalls, bind_apply, Push_eq v q h.1, h1], h2, h3⟩
    | pop =>
      cases l with
      | nil => simp [fifoRun] at hrun
      | cons x l =>
        obtain ⟨hp, hh⟩ := Holds_popped [] h
        simp only [fifoRun] at hrun
        rcases hr : fifoRun q.size.toNat cs l with _ | ⟨outs1, l1⟩
        · rw [hr] at hrun; cases hrun
        · rw [hr] at hrun
          simp only [Option.some.injEq, Prod.mk.injEq] at hrun
          obtain ⟨rfl, rfl⟩ := hrun
          obtain ⟨q', h1, h2, h3⟩ := ih (popped q) l outs1 l1 hh hr
          exact ⟨q', by simp only [runCalls, bind_apply, hp, h1, pure_apply], h2, h3⟩

theorem Holds_of_empty (q : Queue T) (h : WF q) (hempty : q.count = 0) : Holds q [] := by
  refine ⟨h, ?_⟩
  simp [liveSlots, hempty]

theorem Holds_pushed_of_empty (v : T) (q : Queue T) (h : WF q) (hempty : q.count = 0) :
    Holds (pushed v q) [v] := by
  have := Holds_pushed v (Holds_of_empty q h hempty)
  simpa [fifoPush] using this

theorem pushed_of_empty (v : T) (q : Queue T) (h : WF q) (hempty : q.count = 0) :
    (pushed v q).front = q.front ∧ (pushed v q).rear = (q.rear + 1) % q.size ∧
      (pushed v q).count = 1 := by
  have := h.1
  have hne : q.count ≠ q.size := by omega
  refine ⟨?_, rfl, ?_⟩
  · simp only [pushed, if_neg hne]
  · simp only [pushed, if_neg hne]
    omega

theorem cvWait_cases (ws : List (WakeUp T)) (q : Queue T) (h : WF q) :
    (0 < q.count ∧ cvWait (fun q => decide (q.count > 0)) ws q = (Except.ok (), q)) ∨
    (q.count = 0 ∧
      cvWait (fun q => decide (q.count > 0)) ws q = (Except.error Halt.blocked, q)) ∨
    (q.count = 0 ∧ ∃ v : T, WakeUp.pushed v ∈ ws ∧
      cvWait (fun q => decide (q.count > 0)) ws q = (Except.ok (), pushed v q)) := by
  by_cases hpos : 0 < q.count
  · exact Or.inl ⟨hpos, cvWait_of_pred _ ws q (by simpa using hpos)⟩
  · have hempty : q.count = 0 := by have := h.2.2.2.2.2.1; omega
    have hp : ¬ (fun q : Queue T => decide (q.count > 0)) q = true := by simp [hempty]
    refine Or.inr ?_
    induction ws with
    | nil => exact Or.inl ⟨hempty, by rw [cvWait_nil, if_neg hp]⟩
    | cons w ws ih =>
      rw [cvWait_cons, if_neg hp]
      cases w with
      | spurious =>
        simp only [wake, pure_apply]
        rcases ih with ih | ⟨_, v, hv, ih⟩
        · exact Or.inl ⟨hempty, ih.2⟩
        · exact Or.inr ⟨hempty, v, List.mem_cons_of_mem _ hv, ih⟩
      | pushed v =>
        simp only [wake, Push_eq v q h]
        refine Or.inr ⟨hempty, v, List.mem_cons_self _ _, ?_⟩
        exact cvWait_of_pred _ ws _ (by simp [(pushed_of_empty v q h hempty).2.2])

theorem cvWaitFor_cases (ws : List (WakeUp T)) (q : Queue T) (h : WF q) :
    (0 < q.count ∧ cvWaitFor (fun q => decide (q.count > 0)) ws q = (Except.ok true, q)) ∨
    (q.count = 0 ∧
      cvWaitFor (fun q => decide (q.count > 0)) ws q = (Except.ok false, q)) ∨
    (q.count = 0 ∧ ∃ v : T, WakeUp.pushed v ∈ ws ∧
      cvWaitFor (fun q => decide (q.count > 0)) ws q = (Except.ok true, pushed v q)) := by
  by_cases hpos : 0 < q.count
  · exact Or.inl ⟨hpos, cvWaitFor_of_pred _ ws q (by simpa using hpos)⟩
  · have hempty : q.count = 0 := by have := h.2.2.2.2.2.1; omega
    have hp : ¬ (fun q : Queue T => decide (q.count > 0)) q = true := by simp [hempty]
    refine Or.inr ?_
    induction ws with
    | nil => exact Or.inl ⟨hempty, by rw [cvWaitFor_nil]; simp [hempty]⟩
    | cons w ws ih =>
      rw [cvWaitFor_cons, if_neg hp]
      cases w with
      | spurious =>
        simp only [wake, pure_apply]
        rcases ih with ih | ⟨_, v, hv, ih⟩
        · exact Or.inl ⟨hempty, ih.2⟩
        · exact Or.inr ⟨hempty, v, List.mem_cons_of_mem _ hv, ih⟩
      | pushed v =>
        simp only [wake, Push_eq v q h]
        refine Or.inr ⟨hempty, v, List.mem_cons_self _ _, ?_⟩
        exact cvWaitFor_of_pred _ ws _ (by simp [(pushed_of_empty v q h hempty).2.2])

theorem Pop_cases (ws : List (WakeUp T)) (q : Queue T) (h : WF q) :
    (0 < q.count ∧ ∃ x : T, Pop ws q = (Except.ok x, popped q)) ∨
    (q.count = 0 ∧ Pop ws q = (Except.error Halt.blocked, q)) ∨
    (q.count = 0 ∧ ∃ v : T, WakeUp.pushed v ∈ ws ∧
      Pop ws q = (Except.ok v, popped (pushed v q))) := by
  rcases cvWait_cases ws q h with ⟨hpos, _⟩ | ⟨hempty, hw⟩ | ⟨hempty, v, hv, hw⟩
  · obtain ⟨x, hx⟩ := front_slot q h
    exact Or.inl ⟨hpos, x, Pop_eq ws q x h hpos hx⟩
  · exact Or.inr (Or.inl ⟨hempty, Pop_parked ws q q _ hw⟩)
  · refine Or.inr (Or.inr ⟨hempty, v, hv, ?_⟩)
    rw [Pop_resume ws q _ hw]
    exact (Holds_popped [] (Holds_pushed_of_empty v q h hempty)).1

theorem PopWithTimeout_cases (ms : Int) (ws : List (WakeUp T)) (q : Queue T) (h : WF q) :
    (0 < q.count ∧ ∃ x : T, PopWithTimeout ms ws q = (Except.ok x, popped q)) ∨
    (q.count = 0 ∧
      PopWithTimeout ms ws q = (Except.error (Halt.runtimeError timeoutMessage), q)) ∨
    (q.count = 0 ∧ ∃ v : T, WakeUp.pushed v ∈ ws ∧
      PopWithTimeout ms ws q = (Except.ok v, popped (pushed v q))) := by
  rcases cvWaitFor_cases ws q h with ⟨hpos, _⟩ | ⟨hempty, hw⟩ | ⟨hempty, v, hv, hw⟩
  · obtain ⟨x, hx⟩ := front_slot q h
    exact Or.inl ⟨hpos, x, PopWithTimeout_eq ms ws q x h hpos hx⟩
  · exact Or.inr (Or.inl ⟨hempty, PopWithTimeout_expired ms ws q q hw⟩)
  · refine Or.inr (Or.inr ⟨hempty, v, hv, ?_⟩)
    rw [PopWithTimeout_resume ms ws q _ hw]
    exact (Holds_popped_timeout ms [] (Holds_pushed_of_empty v q h hempty)).1

theorem WF.rear_range {q : Queue T} (h : WF q) : 0 ≤ q.rear ∧ q.rear < q.size := by
  obtain ⟨h1, h2, h3, h4, h5, h6, h7, h8⟩ := h
  have hr := emod_wrap (q.front + q.count) q.size (by omega) (by omega)
  split at hr <;> omega

theorem deliveries_Degenerate (ts : List (Turn T)) (q : Queue T) (h : Degenerate q) :
    deliveries ts q = [] := by
  induction ts with
  | nil => rfl
  | cons t ts ih =>
    cases t with
    | push v => simp only [deliveries, Push_Degenerate v q h]
    | pop r => simp only [deliveries, Pop_of_empty q h.2.1, ih]
    | popWithTimeout r ms => simp only [deliveries, PopWithTimeout_of_empty ms q h.2.1, ih]

theorem mkQueue_count [Inhabited T] (c : Int) (q0 : Queue T) (h : mkQueue c = Except.ok q0) :
    q0.count = 0 := by
  unfold mkQueue at h
  split at h
  · cases h
  · cases h; rfl

theorem deliveries_sublist_insertions [Inhabited T] (c : Int) (hmax : c ≤ INT_MAX)
    (q0 : Queue T) (h0 : mkQueue c = Except.ok q0) (ts : List (Turn T)) :
    ((deliveries ts q0).map Prod.snd).Sublist (insertions ts) := by
  rcases (Sound_mkQueue c hmax q0 h0).2 with hwf | hdeg
  · have hsub := deliveries_sublist ts q0 [] (Holds_of_empty q0 hwf (mkQueue_count c q0 h0))
    rwa [List.nil_append] at hsub
  · rw [deliveries_Degenerate ts q0 hdeg]
    exact List.nil_sublist _

/-- C1 (overwrite-oldest): for every capacity `c > 0` (an `int`), every `m > 0` and every
list `xs` of `c + m` values, `Queue(c)` is constructed, pushing all of `xs` in order returns,
and the `c` calls of `Pop` that follow return exactly the last `c` values of `xs` in push
order: the first `m` are discarded. -/
theorem overwrite_oldest [Inhabited T] (c m : Nat) (xs : List T) (hc : 0 < c)
    (hmax : (c : Int) ≤ INT_MAX) (hm : 0 < m) (hlen : xs.length = c + m) :
    ∃ q0 q1 q2 : Queue T, mkQueue (c : Int) = Except.ok q0 ∧
      pushAll xs q0 = (Except.ok (), q1) ∧ popN c q1 = (Except.ok (xs.drop m), q2) := by
  obtain ⟨q0, h0, hh, hs⟩ := Holds_mkQueue (T := T) (c : Int) (by omega) hmax
  obtain ⟨q1, h1, _, hh1⟩ := pushAll_Holds xs hh
  rw [hs, Int.toNat_ofNat, foldl_fifoPush c hc xs [] (Nat.zero_le c)] at hh1
  have hd : ([] ++ xs).length - c = m := by simp; omega
  rw [hd, List.nil_append] at hh1
  have hl : (xs.drop m).length = c := by simp; omega
  obtain ⟨q2, h2, _⟩ := popN_Holds (xs.drop m) q1 [] (by simpa using hh1)
  rw [hl] at h2
  exact ⟨q0, q1, q2, h0, h1, h2⟩

/-- C1 at the input of `QueueTest.PushTest`: capacity 3 and the values 1, 2, 3, 4. -/
theorem overwrite_oldest_witness :
    (0 < 3 ∧ ((3 : Nat) : Int) ≤ INT_MAX ∧ 0 < 1 ∧ [(1 : Int), 2, 3, 4].length = 3 + 1) ∧
    ∃ q0 q1 q2 : Queue Int, mkQueue ((3 : Nat) : Int) = Except.ok q0 ∧
      pushAll [1, 2, 3, 4] q0 = (Except.ok (), q1) ∧
      popN 3 q1 = (Except.ok [2, 3, 4], q2) :=
  ⟨by decide, overwrite_oldest 3 1 [1, 2, 3, 4] (by decide) (by decide) (by decide) (by decide)⟩

/-- C2 (FIFO under no overflow): for every capacity `c > 0` (an `int`) and every list `xs`
of at most `c` values, `Queue(c)` is constructed, pushing all of `xs` in order returns, and
the `xs.length` calls of `Pop` that follow return the values of `xs` in that order. -/
theorem fifo_no_overflow [Inhabited T] (c : Nat) (xs : List T) (hc : 0 < c)
    (hmax : (c : Int) ≤ INT_MAX) (hk : xs.length ≤ c) :
    ∃ q0 q1 q2 : Queue T, mkQueue (c : Int) = Except.ok q0 ∧
      pushAll xs q0 = (Except.ok (), q1) ∧ popN xs.length q1 = (Except.ok xs, q2) := by
  obtain ⟨q0, h0, hh, hs⟩ := Holds_mkQueue (T := T) (c : Int) (by omega) hmax
  obtain ⟨q1, h1, _, hh1⟩ := pushAll_Holds xs hh
  rw [hs, Int.toNat_ofNat, foldl_fifoPush c hc xs [] (Nat.zero_le c)] at hh1
  have hd : ([] ++ xs).length - c = 0 := by simp; omega
  rw [hd, List.nil_append, List.drop_zero] at hh1
  obtain ⟨q2, h2, _⟩ := popN_Holds xs q1 [] (by simpa using hh1)
  exact ⟨q0, q1, q2, h0, h1, h2⟩

/-- C2 at the input of `QueueTest.PopTest`: capacity 2 and the values 1, 2. -/
theorem fifo_no_overflow_witness :
    (0 < 2 ∧ ((2 : Nat) : Int) ≤ INT_MAX ∧ [(1 : Int), 2].length ≤ 2) ∧
    ∃ q0 q1 q2 : Queue Int, mkQueue ((2 : Nat) : Int) = Except.ok q0 ∧
      pushAll [1, 2] q0 = (Except.ok (), q1) ∧ popN 2 q1 = (Except.ok [1, 2], q2) :=
  ⟨by decide, fifo_no_overflow 2 [1, 2] (by decide) (by decide) (by decide)⟩

/-- C3 (capacity invariant): for every queue `q0` constructed by `Queue(c)`, `c` an `int`,
and every finite sequence of `Push`, `Pop` and `PopWithTimeout` calls made on it, the queue
after construction and after each call satisfies `0 <= Count() <= Size()`. -/
theorem capacity_invariant [Inhabited T] (c : Int) (hmax : c ≤ INT_MAX) (q0 : Queue T)
    (h0 : mkQueue c = Except.ok q0) (ops : List (Op T)) :
    ∀ q ∈ q0 :: trace ops q0, 0 ≤ Count q ∧ Count q ≤ Size q := by
  intro q hq
  have hs : Sound c q := ReachableFrom.sound ⟨q0, ops, h0, hq⟩ hmax
  rcases hs.2 with h | h
  · exact ⟨h.2.2.2.2.2.1, h.2.2.2.2.2.2.1⟩
  · simp only [Count, Size, h.1, h.2.1]; exact ⟨le_refl _, le_refl _⟩

/-- C3 on a run of `Queue(2)` that overflows, empties the queue and times out. -/
theorem capacity_invariant_witness :
    ((2 : Int) ≤ INT_MAX ∧
      mkQueue 2 = Except.ok ({ elements := [0, 0], size := 2, front := 0, rear := 0, count := 0 } : Queue Int)) ∧
    ∀ q ∈ ({ elements := [0, 0], size := 2, front := 0, rear := 0, count := 0 } : Queue Int) ::
        trace [Op.push 1, Op.push 2, Op.push 3, Op.pop [], Op.popWithTimeout 10 [],
          Op.popWithTimeout 10 [], Op.push 4]
          { elements := [0, 0], size := 2, front := 0, rear := 0, count := 0 },
      0 ≤ Count q ∧ Count q ≤ Size q :=
  ⟨by decide, capacity_invariant 2 (by decide) _ (by decide) _⟩

/-- C4 (timeout is atomic and raised only on empty): let `q1` be the queue in which the wait
of `PopWithTimeout` ends.  When `q1.count == 0` the call fails with the `runtime_error`
"Timeout while waiting to pop element" and leaves the queue exactly `q1` (no element removed;
`front`, `rear`, `count` and the storage unchanged, so `Count()` is unchanged); when
`q1.count > 0` the call never fails with a `runtime_error`. -/
theorem timeout_atomic (ms : Int) (ws : List (WakeUp T)) (q q1 : Queue T) (b : Bool)
    (hw : cvWaitFor (fun q => decide (q.count > 0)) ws q = (Except.ok b, q1)) :
    (q1.count = 0 →
      PopWithTimeout ms ws q = (Except.error (Halt.runtimeError timeoutMessage), q1) ∧
      Count (PopWithTimeout ms ws q).2 = Count q1) ∧
    (0 < q1.count → ∀ (w : String) (q' : Queue T),
      PopWithTimeout ms ws q ≠ (Except.error (Halt.runtimeError w), q')) := by
  have hb := cvWaitFor_ok _ ws q q1 b hw
  constructor
  · intro h0
    have hf : b = false := by rw [hb]; simp [h0]
    rw [hf] at hw
    rw [PopWithTimeout_expired ms ws q q1 hw]
    exact ⟨rfl, rfl⟩
  · intro hpos
    have ht : b = true := by rw [hb]; simpa using hpos
    rw [ht] at hw
    rw [PopWithTimeout_resume ms ws q q1 hw]
    exact removal_never_throws ms q1 hpos

/-- C4 at the second call of `QueueTest.PopWithTimeoutTest`: `Queue(2)` after `Push(1)` and
a removal, 500 ms, nothing pushed meanwhile. -/
theorem timeout_atomic_witness :
    cvWaitFor (fun q => decide (q.count > 0)) []
        ({ elements := [1, 0], size := 2, front := 1, rear := 1, count := 0 } : Queue Int) =
      (Except.ok false, { elements := [1, 0], size := 2, front := 1, rear := 1, count := 0 }) ∧
    PopWithTimeout 500 []
        ({ elements := [1, 0], size := 2, front := 1, rear := 1, count := 0 } : Queue Int) =
      (Except.error (Halt.runtimeError "Timeout while waiting to pop element"),
        { elements := [1, 0], size := 2, front := 1, rear := 1, count := 0 }) :=
  ⟨by decide, ((timeout_atomic 500 []
    ({ elements := [1, 0], size := 2, front := 1, rear := 1, count := 0 } : Queue Int)
    _ false (by decide)).1 rfl).1⟩

/-- C5 (`PopWithTimeout` agrees with `Pop` on a non-empty queue): for every queue with
`count > 0`, every duration and whatever wake-ups reach either caller,
`PopWithTimeout(duration)` and `Pop` have the same outcome and leave the same queue; and when
the queue satisfies the data-model invariant `WF`, both return a value. -/
theorem popWithTimeout_agrees_pop (ms : Int) (ws ws' : List (WakeUp T)) (q : Queue T)
    (hpos : 0 < q.count) :
    PopWithTimeout ms ws q = Pop ws' q ∧
    (WF q → ∃ (x : T) (q' : Queue T),
      PopWithTimeout ms ws q = (Except.ok x, q') ∧ Pop ws' q = (Except.ok x, q')) := by
  have hp : (fun q : Queue T => decide (q.count > 0)) q = true := by simpa using hpos
  constructor
  · rw [PopWithTimeout_resume ms ws q q (cvWaitFor_of_pred _ ws q hp),
      Pop_resume ws' q q (cvWait_of_pred _ ws' q hp)]
    unfold PopWithTimeout Pop
    rw [bind_apply (cvWaitFor _ _), cvWaitFor_nil, bind_apply (cvWait _ _), cvWait_nil]
    simp only [hp, not_true_eq_false, if_false, if_true]
  · intro hwf
    obtain ⟨x, hx⟩ := front_slot q hwf
    exact ⟨x, popped q, PopWithTimeout_eq ms ws q x hwf hpos hx, Pop_eq ws' q x hwf hpos hx⟩

/-- C5 at the first removal of `QueueTest.PopWithTimeoutTest`: `Queue(2)` after `Push(1)`,
with duration 0. -/
theorem popWithTimeout_agrees_pop_witness :
    (0 : Int) < ({ elements := [1, 0], size := 2, front := 0, rear := 1, count := 1 } : Queue Int).count ∧
    PopWithTimeout 0 []
        ({ elements := [1, 0], size := 2, front := 0, rear := 1, count := 1 } : Queue Int) =
      Pop [] ({ elements := [1, 0], size := 2, front := 0, rear := 1, count := 1 } : Queue Int) :=
  ⟨by decide, (popWithTimeout_agrees_pop 0 [] []
    ({ elements := [1, 0], size := 2, front := 0, rear := 1, count := 1 } : Queue Int)
    (by decide)).1⟩

/-- C6, as stated, fails: `Queue(0)` is constructed, so it is false that construction fails
for every capacity `<= 0`. -/
theorem construction_accepts_zero :
    ¬ (∀ c : Int, c ≤ 0 → ∃ e : Halt, (mkQueue c : Except Halt (Queue Int)) = Except.error e) := by
  intro h
  obtain ⟨e, he⟩ := h 0 (le_refl 0)
  have h0 : (mkQueue 0 : Except Halt (Queue Int)) =
      Except.ok { elements := [], size := 0, front := 0, rear := 0, count := 0 } := by decide
  rw [h0] at he
  cases he

/-- C6 amended: for every capacity `c <= 0`, construction fails exactly when `c < 0` (the
array allocation throws `std::bad_array_new_length`, no queue is created); `Queue(0)` is
created, with no slot, `Size() == 0` and `Count() == 0`. -/
theorem construction_rejects_negative [Inhabited T] (c : Int) (hc : c ≤ 0) :
    (c < 0 → (mkQueue c : Except Halt (Queue T)) = Except.error Halt.badArrayNewLength) ∧
    (c = 0 → (mkQueue c : Except Halt (Queue T)) =
      Except.ok { elements := [], size := 0, front := 0, rear := 0, count := 0 }) := by
  constructor
  · intro h; simp [mkQueue, h]
  · intro h; subst h; simp [mkQueue]

/-- C6 amended, at capacity -1. -/
theorem construction_rejects_negative_witness :
    (-1 : Int) ≤ 0 ∧
    (mkQueue (-1) : Except Halt (Queue Int)) = Except.error Halt.badArrayNewLength :=
  ⟨by decide, (construction_rejects_negative (-1) (by decide)).1 (by decide)⟩

/-- C7 (a new queue is empty with the requested capacity): for every capacity `c > 0`,
`Queue(c)` is constructed with `c` slots, `Size() == c`, `Count() == 0` and
`front == rear == 0`. -/
theorem new_queue_empty [Inhabited T] (c : Int) (hc : 0 < c) :
    ∃ q0 : Queue T, mkQueue c = Except.ok q0 ∧ Size q0 = c ∧ Count q0 = 0 ∧
      q0.front = 0 ∧ q0.rear = 0 ∧ (q0.elements.length : Int) = c := by
  refine ⟨{ elements := List.replicate c.toNat default
            size := c, front := 0, rear := 0, count := 0 }, ?_, rfl, rfl, rfl, rfl, ?_⟩
  · simp only [mkQueue, if_neg (not_lt.mpr (le_of_lt hc))]
  · simp only [List.length_replicate]; omega

/-- C7 at the queue of `QueueTest.SizeAndCountTest`: capacity 2. -/
theorem new_queue_empty_witness :
    (0 : Int) < 2 ∧ ∃ q0 : Queue Int, mkQueue 2 = Except.ok q0 ∧ Size q0 = 2 ∧ Count q0 = 0 ∧
      q0.front = 0 ∧ q0.rear = 0 ∧ (q0.elements.length : Int) = 2 :=
  ⟨by decide, new_queue_empty 2 (by decide)⟩

/-- C8 (effect of `Push` on `Count`): in every queue state `q` reachable from `Queue(c)`,
`c > 0` an `int`, `Push(v)` returns and then `Count()` is `min(Count() + 1, c)`: one more
when the queue was not full, still `c` when it was full; `Size()` is unchanged and is `c`. -/
theorem push_count [Inhabited T] (c : Int) (hc : 0 < c) (hmax : c ≤ INT_MAX) (q : Queue T)
    (hr : ReachableFrom c q) (v : T) :
    ∃ q' : Queue T, Push v q = (Except.ok (), q') ∧
      Count q' = min (Count q + 1) c ∧
      (Count q < c → Count q' = Count q + 1) ∧ (Count q = c → Count q' = c) ∧
      Size q' = Size q ∧ Size q = c := by
  have hwf := hr.wf hc hmax
  have hs : q.size = c := (hr.sound hmax).1
  refine ⟨pushed v q, Push_eq v q hwf, ?_, ?_, ?_, rfl, hs⟩
  · have := hwf.2.2.2.2.2.2.1
    simp only [Count, pushed]
    split <;> omega
  · intro h
    simp only [Count] at h
    simp only [Count, pushed]
    rw [if_neg (by omega)]
  · intro h
    simp only [Count] at h
    simp only [Count, pushed]
    rw [if_pos (by omega)]; exact hs

/-- C8 at `QueueTest.PushTest`: the full `Queue(3)` holding 1, 2, 3 is reachable, and
`Push(4)` leaves `Count()` at 3. -/
theorem push_count_witness :
    ((0 : Int) < 3 ∧ (3 : Int) ≤ INT_MAX) ∧
    ∃ q' : Queue Int,
      Push 4 ({ elements := [1, 2, 3], size := 3, front := 0, rear := 0, count := 3 } : Queue Int) =
        (Except.ok (), q') ∧ Count q' = 3 :=
  ⟨by decide,
    let ⟨q', h1, _, _, h3, _⟩ := push_count 3 (by decide) (by decide)
      ({ elements := [1, 2, 3], size := 3, front := 0, rear := 0, count := 3 } : Queue Int)
      ⟨{ elements := [0, 0, 0], size := 3, front := 0, rear := 0, count := 0 },
        [Op.push 1, Op.push 2, Op.push 3], by decide, by decide⟩ 4
    ⟨q', h1, h3 rfl⟩⟩

/-- C9, as stated, fails: the queue built by `Queue(0)` is a state reachable from
construction, and `Push` on it divides by zero (`(front + 1) % size` with `size == 0`). -/
theorem push_fails_on_zero_capacity :
    ReachableFrom 0 ({ elements := [], size := 0, front := 0, rear := 0, count := 0 } : Queue Int) ∧
    Push 7 ({ elements := [], size := 0, front := 0, rear := 0, count := 0 } : Queue Int) =
      (Except.error Halt.divisionByZero,
        { elements := [], size := 0, front := 0, rear := 0, count := 0 }) :=
  ⟨⟨{ elements := [], size := 0, front := 0, rear := 0, count := 0 }, [], by decide, by decide⟩,
    by decide⟩

/-- C9 amended: in every queue state reachable from `Queue(c)` with `c > 0` (an `int`) and
for every value `v`, `Push(v)` completes without error: the modulus `size` is non-zero, the
written index `rear` lies within the bounds of the storage array, and the call returns. -/
theorem push_never_fails [Inhabited T] (c : Int) (hc : 0 < c) (hmax : c ≤ INT_MAX)
    (q : Queue T) (hr : ReachableFrom c q) (v : T) :
    q.size ≠ 0 ∧ (0 ≤ q.rear ∧ q.rear < (q.elements.length : Int)) ∧
      ∃ q' : Queue T, Push v q = (Except.ok (), q') := by
  have hwf := hr.wf hc hmax
  obtain ⟨h1, h2, h3, h4, h5, h6, h7, h8⟩ := hwf
  have hrr := emod_wrap (q.front + q.count) q.size (by omega) (by omega)
  refine ⟨by omega, ?_, pushed v q, Push_eq v q (hr.wf hc hmax)⟩
  split at hrr <;> omega

/-- C9 amended, at the full `Queue(3)` of `QueueTest.PushTest`. -/
theorem push_never_fails_witness :
    ((0 : Int) < 3 ∧ (3 : Int) ≤ INT_MAX) ∧
    ∃ q' : Queue Int,
      Push 4 ({ elements := [1, 2, 3], size := 3, front := 0, rear := 0, count := 3 } : Queue Int) =
        (Except.ok (), q') :=
  ⟨by decide, (push_never_fails 3 (by decide) (by decide)
      ({ elements := [1, 2, 3], size := 3, front := 0, rear := 0, count := 3 } : Queue Int)
      ⟨{ elements := [0, 0, 0], size := 3, front := 0, rear := 0, count := 0 },
        [Op.push 1, Op.push 2, Op.push 3], by decide, by decide⟩ 4).2.2⟩

/-- C11, as stated, fails: in `Queue(1)` the interleaving `Push(1)`, `Push(2)`, `Pop` by
remover 0 inserts the element 1 and hands it to no remover: the only delivery is 2, and the
queue is empty afterwards, so that a further `Pop` stays parked. -/
theorem evicted_element_is_delivered_to_nobody :
    mkQueue 1 = Except.ok ({ elements := [0], size := 1, front := 0, rear := 0, count := 0 } : Queue Int) ∧
    (1 : Int) ∈ insertions [Turn.push 1, Turn.push 2, Turn.pop 0] ∧
    deliveries [Turn.push 1, Turn.push 2, Turn.pop 0]
      ({ elements := [0], size := 1, front := 0, rear := 0, count := 0 } : Queue Int) = [(0, 2)] ∧
    Pop [] ({ elements := [2], size := 1, front := 0, rear := 0, count := 1 } : Queue Int) =
      (Except.ok 2, { elements := [2], size := 1, front := 0, rear := 0, count := 0 }) ∧
    Pop [] ({ elements := [2], size := 1, front := 0, rear := 0, count := 0 } : Queue Int) =
      (Except.error Halt.blocked, { elements := [2], size := 1, front := 0, rear := 0, count := 0 }) := by
  decide

/-- C11 amended (no double delivery): for every queue constructed by `Queue(c)`, `c` an
`int`, and every interleaving of `Push` callers with `Pop` and `PopWithTimeout` callers,
each inserted element is delivered to at most one remover: the values handed to removers
are a sub-sequence of the values inserted, so when the inserted elements are pairwise
distinct no element is delivered twice and no two removers receive the same element. -/
theorem no_double_delivery [Inhabited T] (c : Int) (hmax : c ≤ INT_MAX)
    (q0 : Queue T) (h0 : mkQueue c = Except.ok q0) (ts : List (Turn T)) :
    ((deliveries ts q0).map Prod.snd).Sublist (insertions ts) ∧
    ((insertions ts).Nodup →
      ((deliveries ts q0).map Prod.snd).Nodup ∧
      ∀ (r1 r2 : Nat) (v : T),
        (r1, v) ∈ deliveries ts q0 → (r2, v) ∈ deliveries ts q0 → r1 = r2) := by
  have hsub := deliveries_sublist_insertions c hmax q0 h0 ts
  refine ⟨hsub, fun hnd => ?_⟩
  have hn := hsub.nodup hnd
  refine ⟨hn, fun r1 r2 v h1 h2 => ?_⟩
  have := List.inj_on_of_nodup_map hn h1 h2 rfl
  exact (Prod.mk.inj this).1

/-- C11 amended, on `Queue(2)` with three removers and an overflow. -/
theorem no_double_delivery_witness :
    ((2 : Int) ≤ INT_MAX ∧
      mkQueue 2 = Except.ok ({ elements := [0, 0], size := 2, front := 0, rear := 0, count := 0 } : Queue Int)) ∧
    ((deliveries [Turn.pop 7, Turn.push 1, Turn.popWithTimeout 3 5, Turn.push 2, Turn.push 3,
        Turn.push 4, Turn.pop 7, Turn.pop 8, Turn.pop 9]
      ({ elements := [0, 0], size := 2, front := 0, rear := 0, count := 0 } : Queue Int)).map
        Prod.snd).Sublist [1, 2, 3, 4] :=
  ⟨by decide, (no_double_delivery 2 (by decide) _ (by decide)
    [Turn.pop 7, Turn.push 1, Turn.popWithTimeout 3 5, Turn.push 2, Turn.push 3,
      Turn.push 4, Turn.pop 7, Turn.pop 8, Turn.pop 9]).1⟩

/-- C12 (the ring buffer refines a bounded FIFO list): for every capacity `c > 0` (an
`int`) and every finite sequence of `Push` and `Pop` calls in which the bounded FIFO list is
non-empty at every `Pop`, the calls made on a new `Queue(c)` all return, every `Pop` returns
the first item of the list, and afterwards the `count` slots read from `front` circularly are
the items of the list. -/
theorem ring_refines_fifo [Inhabited T] (c : Nat) (hc : 0 < c) (hmax : (c : Int) ≤ INT_MAX)
    (cs : List (Call T)) (outs l : List T) (hrun : fifoRun c cs [] = some (outs, l)) :
    ∃ q0 q' : Queue T, mkQueue (c : Int) = Except.ok q0 ∧
      runCalls cs q0 = (Except.ok outs, q') ∧
      liveSlots q' = l.map some ∧ Count q' = (l.length : Int) := by
  obtain ⟨q0, h0, hh, hs⟩ := Holds_mkQueue (T := T) (c : Int) (by omega) hmax
  have hrun' : fifoRun q0.size.toNat cs [] = some (outs, l) := by
    rw [hs, Int.toNat_ofNat]; exact hrun
  obtain ⟨q', h1, h2, _⟩ := runCalls_Holds cs q0 [] outs l hh hrun'
  exact ⟨q0, q', h0, h1, h2.2, h2.length_eq.symm⟩

/-- C12 on `Queue(2)`: three pushes (one eviction) interleaved with three pops. -/
theorem ring_refines_fifo_witness :
    (0 < 2 ∧ ((2 : Nat) : Int) ≤ INT_MAX ∧
      fifoRun 2 [Call.push 1, Call.push 2, Call.push 3, Call.pop, Call.push 4, Call.pop]
        ([] : List Int) = some ([2, 3], [4])) ∧
    ∃ q0 q' : Queue Int, mkQueue ((2 : Nat) : Int) = Except.ok q0 ∧
      runCalls [Call.push 1, Call.push 2, Call.push 3, Call.pop, Call.push 4, Call.pop] q0 =
        (Except.ok [2, 3], q') ∧
      liveSlots q' = [some 4] ∧ Count q' = 1 :=
  ⟨by decide, ring_refines_fifo 2 (by decide) (by decide)
    [Call.push 1, Call.push 2, Call.push 3, Call.pop, Call.push 4, Call.pop] [2, 3] [4]
    (by decide)⟩

/-- C13 (cursor range invariant): in every queue state reachable from `Queue(c)`, `c > 0` an
`int`, by `Push`, `Pop` and `PopWithTimeout` calls, `front` and `rear` lie in `[0, c)`; and
whatever call is made next, each cursor either stays where it is or advances by exactly one
modulo `c`. -/
theorem cursor_range [Inhabited T] (c : Int) (hc : 0 < c) (hmax : c ≤ INT_MAX) (q : Queue T)
    (hr : ReachableFrom c q) :
    (0 ≤ q.front ∧ q.front < c ∧ 0 ≤ q.rear ∧ q.rear < c) ∧
    ∀ op : Op T,
      ((perform op q).2.front = q.front ∨ (perform op q).2.front = (q.front + 1) % c) ∧
      ((perform op q).2.rear = q.rear ∨ (perform op q).2.rear = (q.rear + 1) % c) := by
  have hwf := hr.wf hc hmax
  have hs : q.size = c := (hr.sound hmax).1
  have hrear := hwf.rear_range
  refine ⟨⟨hwf.2.2.2.1, hs ▸ hwf.2.2.2.2.1, hrear.1, hs ▸ hrear.2⟩, fun op => ?_⟩
  subst hs
  cases op with
  | push v =>
    have hp : (perform (Op.push v) q).2 = pushed v q := by
      simp only [perform, snd_bind_pure, Push_eq v q hwf]
    rw [hp]
    refine ⟨?_, Or.inr rfl⟩
    by_cases hfull : q.count = q.size
    · exact Or.inr (by simp only [pushed, if_pos hfull])
    · exact Or.inl (by simp only [pushed, if_neg hfull])
  | pop ws =>
    simp only [perform, snd_bind_pure]
    rcases Pop_cases ws q hwf with ⟨_, x, hx⟩ | ⟨_, hx⟩ | ⟨hempty, v, _, hx⟩
    · rw [hx]; exact ⟨Or.inr rfl, Or.inl rfl⟩
    · rw [hx]; exact ⟨Or.inl rfl, Or.inl rfl⟩
    · obtain ⟨hf, hr', _⟩ := pushed_of_empty v q hwf hempty
      rw [hx]
      refine ⟨Or.inr ?_, Or.inr hr'⟩
      simp only [popped, hf]
      rfl
  | popWithTimeout ms ws =>
    simp only [perform, snd_bind_pure]
    rcases PopWithTimeout_cases ms ws q hwf with ⟨_, x, hx⟩ | ⟨_, hx⟩ | ⟨hempty, v, _, hx⟩
    · rw [hx]; exact ⟨Or.inr rfl, Or.inl rfl⟩
    · rw [hx]; exact ⟨Or.inl rfl, Or.inl rfl⟩
    · obtain ⟨hf, hr', _⟩ := pushed_of_empty v q hwf hempty
      rw [hx]
      refine ⟨Or.inr ?_, Or.inr hr'⟩
      simp only [popped, hf]
      rfl

/-- C13 on the full `Queue(3)` of `QueueTest.PushTest`, where both cursors wrap. -/
theorem cursor_range_witness :
    ((0 : Int) < 3 ∧ (3 : Int) ≤ INT_MAX) ∧
    (0 ≤ ({ elements := [1, 2, 3], size := 3, front := 0, rear := 0, count := 3 } : Queue Int).front ∧
      ({ elements := [1, 2, 3], size := 3, front := 0, rear := 0, count := 3 } : Queue Int).front < 3 ∧
      0 ≤ ({ elements := [1, 2, 3], size := 3, front := 0, rear := 0, count := 3 } : Queue Int).rear ∧
      ({ elements := [1, 2, 3], size := 3, front := 0, rear := 0, count := 3 } : Queue Int).rear < 3) :=
  ⟨by decide, (cursor_range 3 (by decide) (by decide)
      ({ elements := [1, 2, 3], size := 3, front := 0, rear := 0, count := 3 } : Queue Int)
      ⟨{ elements := [0, 0, 0], size := 3, front := 0, rear := 0, count := 0 },
        [Op.push 1, Op.push 2, Op.push 3], by decide, by decide⟩).1⟩

/-- C14 (`Push` on a full queue evicts exactly the oldest element): in every full queue
state (`count == size`) reachable from `Queue(c)`, `c > 0` an `int`, `rear == front`, and
`Push(v)` returns no value, advances `front` and `rear` by one modulo `size`, leaves `count`
equal to `size`, stores `v` in the slot `front` that held the oldest element and leaves every
other slot unchanged; the live items are then the old ones without the oldest, followed by
`v`. -/
theorem push_full_evicts_oldest [Inhabited T] (c : Int) (hc : 0 < c) (hmax : c ≤ INT_MAX)
    (q : Queue T) (hr : ReachableFrom c q) (hfull : q.count = q.size) (v : T) :
    q.rear = q.front ∧
    (liveSlots q).head? = some (q.elements[q.front.toNat]?) ∧
    ∃ q' : Queue T, Push v q = (Except.ok (), q') ∧
      q'.front = (q.front + 1) % q.size ∧ q'.rear = (q.rear + 1) % q.size ∧
      q'.count = q.size ∧ q'.size = q.size ∧
      q'.elements[q.front.toNat]? = some v ∧
      (∀ i : Nat, i ≠ q.front.toNat → q'.elements[i]? = q.elements[i]?) ∧
      liveSlots q' = (liveSlots q).tail ++ [some v] := by
  have hwf := hr.wf hc hmax
  obtain ⟨h1, h2, h3, h4, h5, h6, h7, h8⟩ := hwf
  have hrf : q.rear = q.front := by
    rw [h8, hfull, Int.add_emod_self, Int.emod_eq_of_lt h4 h5]
  have hlive := liveSlots_pushed v q (hr.wf hc hmax)
  rw [if_pos hfull] at hlive
  refine ⟨hrf, ?_, pushed v q, Push_eq v q (hr.wf hc hmax), ?_, rfl, ?_, rfl, ?_, ?_, hlive⟩
  · rw [liveSlots_popped q (hr.wf hc hmax) (by omega)]; rfl
  · simp only [pushed, if_pos hfull]
  · simp only [pushed, if_pos hfull]
  · simp only [pushed, hrf]
    exact List.getElem?_set_self (by omega)
  · intro i hi
    simp only [pushed, hrf]
    exact List.getElem?_set_ne (Ne.symm hi)

/-- C14 at `QueueTest.PushTest`: `Push(4)` on the full `Queue(3)` holding 1, 2, 3. -/
theorem push_full_evicts_oldest_witness :
    ((0 : Int) < 3 ∧ (3 : Int) ≤ INT_MAX ∧
      ({ elements := [1, 2, 3], size := 3, front := 0, rear := 0, count := 3 } : Queue Int).count =
        ({ elements := [1, 2, 3], size := 3, front := 0, rear := 0, count := 3 } : Queue Int).size) ∧
    ∃ q' : Queue Int,
      Push 4 ({ elements := [1, 2, 3], size := 3, front := 0, rear := 0, count := 3 } : Queue Int) =
        (Except.ok (), q') ∧ q'.front = 1 ∧ q'.rear = 1 ∧ q'.count = 3 ∧
      q'.elements[0]? = some 4 :=
  ⟨by decide,
    let ⟨q', h1, h2, h3, h4, _, h5, _⟩ := (push_full_evicts_oldest 3 (by decide) (by decide)
      ({ elements := [1, 2, 3], size := 3, front := 0, rear := 0, count := 3 } : Queue Int)
      ⟨{ elements := [0, 0, 0], size := 3, front := 0, rear := 0, count := 0 },
        [Op.push 1, Op.push 2, Op.push 3], by decide, by decide⟩ (by decide) 4).2.2
    ⟨q', h1, h2, h3, h4, h5⟩⟩

/-- C15 (effect and frame of `Pop`): for every queue state that satisfies the data-model
invariant `WF` and has `count > 0`, whatever wake-ups reach the caller, `Pop` returns the
value stored at index `front`, sets `front` to `(front + 1) mod size`, decrements `count` by
exactly one, and leaves `rear`, `size` and every storage slot unchanged. -/
theorem pop_effect_frame (ws : List (WakeUp T)) (q : Queue T) (hwf : WF q)
    (hpos : 0 < q.count) :
    ∃ (x : T) (q' : Queue T), q.elements[q.front.toNat]? = some x ∧
      Pop ws q = (Except.ok x, q') ∧
      q'.front = (q.front + 1) % q.size ∧ q'.count = q.count - 1 ∧
      q'.rear = q.rear ∧ q'.size = q.size ∧ q'.elements = q.elements := by
  obtain ⟨x, hx⟩ := front_slot q hwf
  exact ⟨x, popped q, hx, Pop_eq ws q x hwf hpos hx, rfl, rfl, rfl, rfl, rfl⟩

/-- C15 at the first `Pop` of `QueueTest.PopTest`: `Queue(2)` holding 1, 2. -/
theorem pop_effect_frame_witness :
    (WF ({ elements := [1, 2], size := 2, front := 0, rear := 0, count := 2 } : Queue Int) ∧
      0 < ({ elements := [1, 2], size := 2, front := 0, rear := 0, count := 2 } : Queue Int).count) ∧
    ∃ (x : Int) (q' : Queue Int),
      ({ elements := [1, 2], size := 2, front := 0, rear := 0, count := 2 } : Queue Int).elements[
        ({ elements := [1, 2], size := 2, front := 0, rear := 0, count := 2 } : Queue Int).front.toNat]? =
        some x ∧
      Pop [] ({ elements := [1, 2], size := 2, front := 0, rear := 0, count := 2 } : Queue Int) =
        (Except.ok x, q') ∧
      q'.front = (0 + 1) % 2 ∧ q'.count = 2 - 1 ∧ q'.rear = 0 ∧ q'.size = 2 ∧
      q'.elements = [1, 2] :=
  ⟨by decide, pop_effect_frame []
    ({ elements := [1, 2], size := 2, front := 0, rear := 0, count := 2 } : Queue Int)
    (by decide) (by decide)⟩

/-- C16 (cursor relation invariant): in every queue state reachable from `Queue(c)`, `c > 0`
an `int`, by `Push`, `Pop` and `PopWithTimeout` calls, `rear == (front + count) mod c`; in
particular `front == rear` exactly when the queue is empty or full. -/
theorem cursor_relation [Inhabited T] (c : Int) (hc : 0 < c) (hmax : c ≤ INT_MAX)
    (q : Queue T) (hr : ReachableFrom c q) :
    q.rear = (q.front + q.count) % c ∧
    (q.front = q.rear ↔ (q.count = 0 ∨ q.count = c)) := by
  have hs : q.size = c := (hr.sound hmax).1
  obtain ⟨h1, h2, h3, h4, h5, h6, h7, h8⟩ := hr.wf hc hmax
  subst hs
  have hw := emod_wrap (q.front + q.count) q.size (by omega) (by omega)
  refine ⟨h8, ?_⟩
  rw [h8]
  split at hw <;> rw [hw] <;> constructor <;> intro h <;> omega

/-- C16 on `Queue(2)` after `Push(1)`, `Push(2)` and a `Pop`: `rear` has wrapped. -/
theorem cursor_relation_witness :
    ((0 : Int) < 2 ∧ (2 : Int) ≤ INT_MAX) ∧
    ({ elements := [1, 2], size := 2, front := 1, rear := 0, count := 1 } : Queue Int).rear =
      (({ elements := [1, 2], size := 2, front := 1, rear := 0, count := 1 } : Queue Int).front +
        ({ elements := [1, 2], size := 2, front := 1, rear := 0, count := 1 } : Queue Int).count) % 2 :=
  ⟨by decide, (cursor_relation 2 (by decide) (by decide)
      ({ elements := [1, 2], size := 2, front := 1, rear := 0, count := 1 } : Queue Int)
      ⟨{ elements := [0, 0], size := 2, front := 0, rear := 0, count := 0 },
        [Op.push 1, Op.push 2, Op.pop []], by decide, by decide⟩).1⟩

/-- C17 (push-then-remove round trip on an empty queue): in every empty queue state
(`count == 0`, wherever `front` and `rear` point) reachable from `Queue(c)`, `c > 0` an
`int`, and for every value `v`, `Push(v)` returns, and then `Pop`, and equally
`PopWithTimeout` with any duration, returns `v` and leaves the queue empty, `Count() == 0`,
whatever wake-ups reach the caller. -/
theorem push_remove_round_trip [Inhabited T] (c : Int) (hc : 0 < c) (hmax : c ≤ INT_MAX)
    (q : Queue T) (hr : ReachableFrom c q) (hempty : q.count = 0) (v : T) (ms : Int)
    (ws ws' : List (WakeUp T)) :
    ∃ q1 q2 : Queue T, Push v q = (Except.ok (), q1) ∧
      Pop ws q1 = (Except.ok v, q2) ∧ PopWithTimeout ms ws' q1 = (Except.ok v, q2) ∧
      Count q2 = 0 := by
  have hwf := hr.wf hc hmax
  have hh := Holds_pushed_of_empty v q hwf hempty
  obtain ⟨hp, hh2⟩ := Holds_popped ws hh
  exact ⟨pushed v q, popped (pushed v q), Push_eq v q hwf, hp,
    (Holds_popped_timeout ms ws' hh).1, hh2.count_nil⟩

/-- C17 at the first two calls of `QueueTest.PopWithTimeoutTest`, and on an empty
`Queue(2)` whose cursors are not at 0. -/
theorem push_remove_round_trip_witness :
    ((0 : Int) < 2 ∧ (2 : Int) ≤ INT_MAX ∧
      ({ elements := [1, 0], size := 2, front := 1, rear := 1, count := 0 } : Queue Int).count = 0) ∧
    ∃ q1 q2 : Queue Int,
      Push 9 ({ elements := [1, 0], size := 2, front := 1, rear := 1, count := 0 } : Queue Int) =
        (Except.ok (), q1) ∧
      Pop [] q1 = (Except.ok 9, q2) ∧ PopWithTimeout 1000 [] q1 = (Except.ok 9, q2) ∧
      Count q2 = 0 :=
  ⟨by decide, push_remove_round_trip 2 (by decide) (by decide)
    ({ elements := [1, 0], size := 2, front := 1, rear := 1, count := 0 } : Queue Int)
    ⟨{ elements := [0, 0], size := 2, front := 0, rear := 0, count := 0 },
      [Op.push 1, Op.pop []], by decide, by decide⟩ (by decide) 9 1000 [] []⟩

/-- C18 (no signed-integer overflow in the cursor arithmetic): in every queue state
reachable from `Queue(c)` with `0 < c <= INT_MAX`, the values `front + 1`, `rear + 1` and
`count + 1` (taken after the `--count` of a full queue) that `Push`, `Pop` and
`PopWithTimeout` compute do not exceed `INT_MAX`, the `int` additions and the `--count`
subtraction yield the exact mathematical results, and the calls return the queues `pushed`
and `popped` that are computed with exact integer arithmetic. -/
theorem no_int_overflow [Inhabited T] (c : Int) (hc : 0 < c) (hmax : c ≤ INT_MAX)
    (q : Queue T) (hr : ReachableFrom c q) :
    (q.front + 1 ≤ INT_MAX ∧ q.rear + 1 ≤ INT_MAX ∧
      (if q.count = q.size then q.count - 1 else q.count) + 1 ≤ INT_MAX) ∧
    ((intAdd q.front 1 : Exec T Int) q = (Except.ok (q.front + 1), q) ∧
      (intAdd q.rear 1 : Exec T Int) q = (Except.ok (q.rear + 1), q) ∧
      (intAdd (if q.count = q.size then q.count - 1 else q.count) 1 : Exec T Int) q =
        (Except.ok ((if q.count = q.size then q.count - 1 else q.count) + 1), q) ∧
      (0 < q.count → (intSub q.count 1 : Exec T Int) q = (Except.ok (q.count - 1), q))) ∧
    (∀ v : T, Push v q = (Except.ok (), pushed v q)) ∧
    (0 < q.count → ∀ (ms : Int) (ws : List (WakeUp T)), ∃ x : T,
      Pop ws q = (Except.ok x, popped q) ∧ PopWithTimeout ms ws q = (Except.ok x, popped q)) := by
  have hwf := hr.wf hc hmax
  have hrear := hwf.rear_range
  obtain ⟨h1, h2, h3, h4, h5, h6, h7, h8⟩ := hwf
  have hI : INT_MAX = 2147483647 := rfl
  have hJ : INT_MIN = -2147483648 := rfl
  have hcnt : 0 ≤ (if q.count = q.size then q.count - 1 else q.count) ∧
      (if q.count = q.size then q.count - 1 else q.count) + 1 ≤ INT_MAX := by
    split <;> omega
  refine ⟨⟨by omega, by omega, hcnt.2⟩, ⟨?_, ?_, ?_, ?_⟩, fun v => Push_eq v q (hr.wf hc hmax), ?_⟩
  · exact intAdd_ok _ _ _ (by omega)
  · exact intAdd_ok _ _ _ (by omega)
  · exact intAdd_ok _ _ _ (by omega)
  · intro hpos; exact intSub_ok _ _ _ (by omega)
  · intro hpos ms ws
    obtain ⟨x, hx⟩ := front_slot q (hr.wf hc hmax)
    exact ⟨x, Pop_eq ws q x (hr.wf hc hmax) hpos hx,
      PopWithTimeout_eq ms ws q x (hr.wf hc hmax) hpos hx⟩

/-- C18 on the full `Queue(3)` of `QueueTest.PushTest`. -/
theorem no_int_overflow_witness :
    ((0 : Int) < 3 ∧ (3 : Int) ≤ INT_MAX) ∧
    (({ elements := [1, 2, 3], size := 3, front := 0, rear := 0, count := 3 } : Queue Int).front + 1 ≤
        INT_MAX ∧
      ({ elements := [1, 2, 3], size := 3, front := 0, rear := 0, count := 3 } : Queue Int).rear + 1 ≤
        INT_MAX) :=
  have h := (no_int_overflow 3 (by decide) (by decide)
    ({ elements := [1, 2, 3], size := 3, front := 0, rear := 0, count := 3 } : Queue Int)
    ⟨{ elements := [0, 0, 0], size := 3, front := 0, rear := 0, count := 0 },
      [Op.push 1, Op.push 2, Op.push 3], by decide, by decide⟩).1
  ⟨by decide, h.1, h.2.1⟩

end BoschQueue
